import Mathlib

/-!
Verification of the Light.vn works archive server (`src/main.rs`).

The development shallowly embeds the two core components of the program:

* the hierarchical content-tree builder (`get_tree`, `parent_path`,
  `attach_children`, the thumbnail extractor `extract_first_image`), and
* the safe path-resolution and render pipeline (`render_markdown`,
  `not_found_html`).

Strings are modelled at the level of their character lists (UTF-8 byte
indexing in the Rust source always lands on character boundaries for the
ASCII patterns involved, and byte-wise lexicographic order on UTF-8 agrees
with code-point order, so this is faithful).  The external markdown engine
(pulldown_cmark) and the HTTP framework are collaborators outside the
repository; the markdown event stream and the filesystem are modelled as
explicit data passed to the embedded functions.
-/

set_option maxRecDepth 16384

namespace LightVN

/-! ### Generic character-list helpers -/

/-- Index of the first occurrence of `pat` as a contiguous sublist of the
given list, mirroring Rust `str::find` on a string pattern (byte offsets in
Rust, character offsets here; these agree because UTF-8 substring matches of
valid UTF-8 patterns always fall on character boundaries). -/
def findSubIdx (pat : List Char) : List Char → Option Nat
  | [] => if pat.isPrefixOf ([] : List Char) then some 0 else none
  | c :: cs =>
    if pat.isPrefixOf (c :: cs) then some 0
    else (findSubIdx pat cs).map (· + 1)

/-- Rust `str::contains` on a string pattern. -/
def contains_sub (s pat : String) : Bool :=
  (findSubIdx pat.data s.data).isSome

/-- Byte-wise (equivalently, code-point-wise) lexicographic order used by
Rust's `Ord for String` (`children.sort()` in the source). -/
def chars_le : List Char → List Char → Bool
  | [], _ => true
  | _ :: _, [] => false
  | a :: as, b :: bs => if a < b then true else if a = b then chars_le as bs else false

/-- Lexicographic order on strings, as used by Rust's `Vec<String>::sort`. -/
def str_le (a b : String) : Bool :=
  chars_le a.data b.data

/-- The ordering relation fed to the sort. -/
def strLeRel (a b : String) : Prop := str_le a b = true

instance : DecidableRel strLeRel := fun a b => by
  unfold strLeRel; infer_instance

/-! ### Thumbnail extractor (`extract_first_image`, src/main.rs:166-188) -/

/-- Markdown parser events.  Modelled from the spec: the external markdown
engine (pulldown_cmark) turns a document into a sequence of events; a raw
HTML fragment embedded verbatim in the markdown yields an `html` event,
markdown-native image syntax `![alt](url)` yields an `image` event (never an
`html` event), and everything else is irrelevant to the extractor. -/
inductive MdEvent where
  | html (s : String)
  | image (url : String)
  | text (s : String)
  | other
deriving DecidableEq

/-- The literal marker searched for inside a raw-HTML event
(src/main.rs:174). -/
def src_marker : String := "src=\"https://github.com/user-attachments/"

/-- The trusted asset-host prefix re-checked after extraction
(src/main.rs:179). -/
def trusted_prefix : String := "https://github.com/user-attachments/"

/-- Body of the `Event::Html` arm of `extract_first_image`
(src/main.rs:171-183): find the marker, skip the 5 bytes `src="`, take the
characters up to the next double quote, and re-validate the trusted-host
prefix. -/
def find_image_in_html (h : String) : Option String :=
  match findSubIdx src_marker.data h.data with
  | none => none
  | some src_start =>
    let rest := h.data.drop (src_start + 5)
    if rest.contains '"' then
      let src_value := rest.takeWhile (fun c => c ≠ '"')
      if trusted_prefix.data.isPrefixOf src_value then some (String.mk src_value)
      else none
    else none

/-- `extract_first_image` (src/main.rs:166-188): scan the event stream in
order; the first raw-HTML event whose scan succeeds decides the result;
every other event (including markdown-native images) is skipped. -/
def extract_first_image : List MdEvent → Option String
  | [] => none
  | MdEvent.html h :: rest =>
    match find_image_in_html h with
    | some v => some v
    | none => extract_first_image rest
  | _ :: rest => extract_first_image rest

/-! ### `parent_path` (src/main.rs:142-150) -/

/-- `path.trim_end_matches('/')`. -/
def trim_end_slashes (cs : List Char) : List Char :=
  (cs.reverse.dropWhile (fun c => c = '/')).reverse

/-- `parent_path` (src/main.rs:142-150): trim trailing slashes, look for the
last `/`; no slash means no parent, a slash at position 0 means the argument
is the root. -/
def parent_path (path : String) : Option String :=
  let cs := trim_end_slashes path.data
  match cs.reverse.dropWhile (fun c => c ≠ '/') with
  | [] => none
  | _ :: rest => if rest = [] then none else some (String.mk rest.reverse)

/-! ### Path validator and render pipeline (src/main.rs:190-311) -/

/-- The rejection condition of the render endpoint (src/main.rs:193-199).
Rust `str::len` is the UTF-8 byte length, hence `utf8ByteSize`. -/
def validate_rejects (year title : String) : Bool :=
  year.utf8ByteSize > 20 || title.utf8ByteSize > 300
    || contains_sub year ".." || contains_sub title ".."
    || year.data.contains '/' || title.data.contains '/'

/-- `Path::join` for the relative, non-empty-base segments reachable in
`render_markdown` (src/main.rs:206): a separator is inserted unless the base
already ends with one; joining the empty string only appends a separator. -/
def path_join (base seg : String) : String :=
  if seg = "" then base ++ "/"
  else if base.data.getLast? = some '/' then base ++ seg
  else base ++ "/" ++ seg

/-- The pieces of the 404 page template of `not_found_html`
(src/main.rs:283-304), split around the interpolated `{year}/{title}.md`. -/
def nf_pre : String := "
            <!DOCTYPE html>
            <html lang=\"en\" class=\"dark\">
            <head><title>404 Not Found</title>
            <style>body \x7b background:#0a0a0f; color:#e0e0ff; font-family:sans-serif; padding:4rem; text-align:center; \x7d</style>
            </head>
            <body>
                <h1>404 - Not Found</h1>
                <p>Could not find: <code>"

def nf_post : String := "</code></p>
                <p><a href=\"/\" style=\"color:#6366f1;\">← Back to archive</a></p>
            </body>
            </html>
            "

/-- `not_found_html` (src/main.rs:283-304).  A response is modelled as a
status code paired with the HTML body. -/
def not_found_html (year title : String) : Nat × String :=
  (404, nf_pre ++ year ++ "/" ++ title ++ ".md" ++ nf_post)

/-- Unicode `White_Space` property, as used by Rust `str::split_whitespace`
via `char::is_whitespace`. -/
def rust_is_whitespace (c : Char) : Bool :=
  c = '\u0009' || c = '\u000A' || c = '\u000B' || c = '\u000C' || c = '\u000D'
    || c = '\u0020' || c = '\u0085' || c = '\u00A0' || c = '\u1680'
    || c = '\u2000' || c = '\u2001' || c = '\u2002' || c = '\u2003'
    || c = '\u2004' || c = '\u2005' || c = '\u2006' || c = '\u2007'
    || c = '\u2008' || c = '\u2009' || c = '\u200A' || c = '\u2028'
    || c = '\u2029' || c = '\u202F' || c = '\u205F' || c = '\u3000'

/-- `str::split_whitespace`: the maximal runs of non-whitespace characters,
in order.  `acc` holds the current run, reversed. -/
def split_whitespace_aux : List Char → List Char → List (List Char)
  | [], acc => if acc = [] then [] else [acc.reverse]
  | c :: cs, acc =>
    if rust_is_whitespace c then
      if acc = [] then split_whitespace_aux cs []
      else acc.reverse :: split_whitespace_aux cs []
    else split_whitespace_aux cs (c :: acc)

/-- `char::to_uppercase` restricted to its ASCII behaviour (all titles in the
claims are ASCII; Lean's `Char.toUpper` matches Rust on that range). -/
def capitalize_word (w : List Char) : List Char :=
  match w with
  | [] => []
  | c :: rest => c.toUpper :: rest

/-- The display-title computation of `render_markdown` (src/main.rs:219-228):
replace `-` and `_` by spaces, split on whitespace, capitalize each word's
first character, and re-join with single spaces. -/
def display_title (title : String) : String :=
  let replaced := (title.data.map fun c => if c = '-' then ' ' else c).map
    fun c => if c = '_' then ' ' else c
  let words := split_whitespace_aux replaced []
  String.intercalate " " (words.map fun w => String.mk (capitalize_word w))

/-- Page template of `render_markdown` (src/main.rs:230-278), part before
the `<title>` interpolation. -/
def tpl_head : String := "
        <!DOCTYPE html>
        <html lang=\"en\" class=\"dark\">
        <head>
            <meta charset=\"UTF-8\" />
            <meta name=\"viewport\" content=\"width=device-width, initial-scale=1.0\"/>
            <title>"

/-- Page template, from after `{title_display} - {year}` in the `<title>`
down to the `<h1>` interpolation. -/
def tpl_style : String := "</title>
            <link rel=\"preconnect\" href=\"https://fonts.googleapis.com\">
            <link rel=\"preconnect\" href=\"https://fonts.gstatic.com\" crossorigin>
            <link href=\"https://fonts.googleapis.com/css2?family=Inter:wght@300;400;500;600;700&display=swap\" rel=\"stylesheet\">
            <style>
                :root \x7b
                    --bg: #0a0a0f;
                    --text: #e0e0ff;
                    --text-muted: #a0a0cc;
                    --accent: #6366f1;
                \x7d
                body \x7b
                    font-family: 'Inter', system-ui, sans-serif;
                    background: var(--bg);
                    color: var(--text);
                    min-height: 100vh;
                    padding: 3rem 1rem;
                    line-height: 1.7;
                    max-width: 900px;
                    margin: 0 auto;
                \x7d
                h1, h2, h3 \x7b color: #fff; \x7d
                a \x7b color: var(--accent); \x7d
                pre \x7b background: #111119; padding: 1rem; border-radius: 0.5rem; overflow-x: auto; \x7d
                code \x7b background: #111119; padding: 0.2em 0.4em; border-radius: 0.3rem; \x7d
                .back \x7b display: inline-block; margin: 1.5rem 0; color: var(--text-muted); text-decoration: none; \x7d
                .back:hover \x7b color: var(--accent); \x7d
                img \x7b max-width: 100%; height: auto; border-radius: 0.5rem; \x7d
            </style>
        </head>
        <body>
            <a href=\"/\" class=\"back\">← Back to archive</a>
            <h1>"

/-- Page template, between the `<h1>` title and the `From {year}` line. -/
def tpl_from : String := "</h1>
            <p style=\"color: var(--text-muted);\">From "

/-- Page template, between the year and the converted markdown body. -/
def tpl_body : String := "</p>
            <div>"

/-- Page template tail. -/
def tpl_tail : String := "</div>
        </body>
        </html>
        "

/-- The assembled 200 page of `render_markdown` (src/main.rs:230-278). -/
def page_template (title_display year md_html : String) : String :=
  tpl_head ++ title_display ++ " - " ++ year ++ tpl_style ++ title_display
    ++ tpl_from ++ year ++ tpl_body ++ md_html ++ tpl_tail

/-- `render_markdown` (src/main.rs:190-281).  The filesystem is modelled as
an association list from path strings to file contents (`some content` for a
readable regular file, `none` for a regular file whose read fails); the
external markdown-to-HTML conversion is an opaque function parameter. -/
def render_markdown (fs_files : List (String × Option String))
    (md_to_html : String → String) (year title : String) : Nat × String :=
  if validate_rejects year title then
    (400, "<h1>400 Bad Request</h1><p>Invalid year or title</p>")
  else
    let file_path := path_join (path_join "works" year) (title ++ ".md")
    if ¬ ("works/".data.isPrefixOf file_path.data) then not_found_html year title
    else
      match fs_files.lookup file_path with
      | none => not_found_html year title
      | some none => not_found_html year title
      | some (some content) =>
        let md_html := md_to_html content
        let title_display := display_title title
        (200, page_template title_display year md_html)

/-! ### Tree builder data model (src/main.rs:20-164) -/

/-- The `Node` struct (src/main.rs:20-28). -/
inductive Node where
  | mk (name : String) (path : String) (is_dir : Bool)
       (children : Option (List Node)) (thumbnail : Option String)

def Node.name : Node → String
  | .mk n _ _ _ _ => n

def Node.path : Node → String
  | .mk _ p _ _ _ => p

def Node.is_dir : Node → Bool
  | .mk _ _ d _ _ => d

def Node.children : Node → Option (List Node)
  | .mk _ _ _ c _ => c

def Node.thumbnail : Node → Option String
  | .mk _ _ _ _ t => t

/-- `node.children = ...` (the assignment in src/main.rs:162). -/
def Node.withChildren : Node → Option (List Node) → Node
  | .mk n p d _ t, c => .mk n p d c t

/-- One entry produced by the directory walk (src/main.rs:55-98), excluding
the skipped root itself.  `segs` is the list of `/`-separated components of
the path relative to the content root after normalization (each non-empty in
any entry an actual walk can produce); `content` is the parsed event stream
of the file for a readable file and `none` when reading fails. -/
structure FsEntry where
  segs : List String
  isDir : Bool
  content : Option (List MdEvent)
deriving DecidableEq

/-- The path normalizer (src/main.rs:68-83): the virtual path of an entry. -/
def vpath (e : FsEntry) : String :=
  if e.segs = [] then "/works" else "/works/" ++ String.intercalate "/" e.segs

/-- `full_path.file_name()` (src/main.rs:85-88): the last path component. -/
def entry_name (e : FsEntry) : String :=
  e.segs.getLastD ""

/-- `Path::extension` of a file name (src/main.rs:94): the part after the
last `.`, none when there is no `.` or the only `.` is leading. -/
def file_extension (name : String) : Option String :=
  match name.data.reverse.dropWhile (fun c => c ≠ '.') with
  | [] => none
  | _ :: rest =>
    if rest = [] then none
    else some (String.mk (name.data.reverse.takeWhile (fun c => c ≠ '.')).reverse)

/-- `str::eq_ignore_ascii_case` (src/main.rs:94); Lean's `Char.toLower`
lower-cases exactly the ASCII range, as Rust's `to_ascii_lowercase` does. -/
def eq_ignore_ascii_case (a b : String) : Bool :=
  a.data.map Char.toLower == b.data.map Char.toLower

/-- The markdown-extension test guarding the thumbnail read
(src/main.rs:94). -/
def has_md_extension (name : String) : Bool :=
  match file_extension name with
  | some ext => eq_ignore_ascii_case ext "md"
  | none => false

/-- The `Node` built for one walk entry (src/main.rs:92-111). -/
def mk_node (e : FsEntry) : Node :=
  Node.mk (entry_name e) (vpath e) e.isDir
    (if e.isDir then some [] else none)
    (if e.isDir = false && has_md_extension (entry_name e) then
      match e.content with
      | some evs => extract_first_image evs
      | none => none
    else none)

/-- `HashMap::insert` on an association list: replace the binding if the key
is present, else append it. -/
def insert_node : List (String × Node) → String → Node → List (String × Node)
  | [], k, v => [(k, v)]
  | (k', v') :: rest, k, v =>
    if k' = k then (k, v) :: rest else (k', v') :: insert_node rest k v

/-- The flat path-to-node map built by the walk loop (src/main.rs:53-114);
the root entry itself is skipped (src/main.rs:63-65). -/
def build_nodes (entries : List FsEntry) : List (String × Node) :=
  entries.foldl (fun m e => if e.segs = [] then m else insert_node m (vpath e) (mk_node e)) []

/-- `HashMap::remove` on an association list with unique keys. -/
def erase_key : List (String × Node) → String → List (String × Node)
  | [], _ => []
  | (k', v) :: rest, k => if k' = k then rest else (k', v) :: erase_key rest k

/-- The synthesized root used when the walk produced no root node
(src/main.rs:117-123). -/
def default_root : Node :=
  Node.mk "works" "/works" true (some []) none

/-- `by_parent.entry(parent).or_default().push(path)` (src/main.rs:129) on an
association list: append to the group if present, else create it. -/
def add_group : List (String × List String) → String → String → List (String × List String)
  | [], k, v => [(k, [v])]
  | (k', vs) :: rest, k, v =>
    if k' = k then (k', vs ++ [v]) :: rest else (k', vs) :: add_group rest k v

/-- The parent-to-children index (src/main.rs:125-131). -/
def build_groups (keys : List String) : List (String × List String) :=
  keys.foldl (fun m p =>
    match parent_path p with
    | some par => add_group m par p
    | none => m) []

/-- `children.sort()` for every group (src/main.rs:133-135). -/
def sort_groups (gs : List (String × List String)) : List (String × List String) :=
  gs.map fun kv => (kv.1, List.insertionSort strLeRel kv.2)

/-- `attach_children` (src/main.rs:152-164).  The Rust recursion is bounded
by the strictly increasing path lengths along parent-to-child edges; the
embedding makes that explicit with a fuel argument (`get_tree` passes one
more than the number of keys, which the development proves sufficient). -/
def attach_children (all_nodes : List (String × Node))
    (by_parent : List (String × List String)) : Nat → Node → Node
  | 0, node => node
  | fuel + 1, node =>
    match by_parent.lookup node.path with
    | none => node
    | some child_paths =>
      let children := child_paths.foldl (fun acc cp =>
        match all_nodes.lookup cp with
        | some child => acc ++ [attach_children all_nodes by_parent fuel child]
        | none => acc) []
      node.withChildren (if children.isEmpty then none else some children)

/-- `get_tree` (src/main.rs:30-140) as a function of the walk result. -/
def get_tree (entries : List FsEntry) : Node :=
  let nodes0 := build_nodes entries
  let root := (nodes0.lookup "/works").getD default_root
  let nodes := erase_key nodes0 "/works"
  let keys := nodes.map Prod.fst
  let by_parent := sort_groups (build_groups keys)
  attach_children nodes by_parent (keys.length + 1) root

mutual

/-- All nodes of a tree, in preorder. -/
def tree_nodes : Node → List Node
  | .mk n p d c t =>
    .mk n p d c t :: (match c with
      | none => []
      | some cs => tree_nodes_list cs)

def tree_nodes_list : List Node → List Node
  | [] => []
  | n :: ns => tree_nodes n ++ tree_nodes_list ns

end

/-! ### Serialized form (serde, src/main.rs:20-28) -/

/-- JSON values, for the serde serialization of `Node`. -/
inductive Json where
  | null
  | str (s : String)
  | bool (b : Bool)
  | arr (xs : List Json)
  | obj (fields : List (String × Json))

mutual

/-- The serde serialization of `Node` (src/main.rs:20-28): fields in
declaration order; `children` has no skip attribute, so `None` serializes as
`null`; `thumbnail` carries `skip_serializing_if = "Option::is_none"` and is
omitted when absent. -/
def serialize_node : Node → Json
  | .mk n p d c t =>
    Json.obj ([("name", Json.str n), ("path", Json.str p), ("is_dir", Json.bool d),
      ("children", match c with
        | none => Json.null
        | some cs => Json.arr (serialize_node_list cs))] ++
      (match t with
        | none => []
        | some u => [("thumbnail", Json.str u)]))

def serialize_node_list : List Node → List Json
  | [] => []
  | n :: ns => serialize_node n :: serialize_node_list ns

end

/-- Field lookup in a serialized JSON object. -/
def json_field (j : Json) (k : String) : Option Json :=
  match j with
  | Json.obj fields => fields.lookup k
  | _ => none

/-- The per-event scan: only raw-HTML events can produce a thumbnail URL;
markdown-native images and all other events never do. -/
def event_image : MdEvent → Option String
  | MdEvent.html h => find_image_in_html h
  | _ => none

/-- The filesystem state of the C7 scenario: one readable document at
`works/2024/my-post.md` containing `# Hello`. -/
def c7_fs : List (String × Option String) := [("works/2024/my-post.md", some "# Hello")]

/-- `tpl_style` without its four final characters `<h1>`. -/
def tpl_style_pre : String := "</title>
            <link rel=\"preconnect\" href=\"https://fonts.googleapis.com\">
            <link rel=\"preconnect\" href=\"https://fonts.gstatic.com\" crossorigin>
            <link href=\"https://fonts.googleapis.com/css2?family=Inter:wght@300;400;500;600;700&display=swap\" rel=\"stylesheet\">
            <style>
                :root \x7b
                    --bg: #0a0a0f;
                    --text: #e0e0ff;
                    --text-muted: #a0a0cc;
                    --accent: #6366f1;
                \x7d
                body \x7b
                    font-family: 'Inter', system-ui, sans-serif;
                    background: var(--bg);
                    color: var(--text);
                    min-height: 100vh;
                    padding: 3rem 1rem;
                    line-height: 1.7;
                    max-width: 900px;
                    margin: 0 auto;
                \x7d
                h1, h2, h3 \x7b color: #fff; \x7d
                a \x7b color: var(--accent); \x7d
                pre \x7b background: #111119; padding: 1rem; border-radius: 0.5rem; overflow-x: auto; \x7d
                code \x7b background: #111119; padding: 0.2em 0.4em; border-radius: 0.3rem; \x7d
                .back \x7b display: inline-block; margin: 1.5rem 0; color: var(--text-muted); text-decoration: none; \x7d
                .back:hover \x7b color: var(--accent); \x7d
                img \x7b max-width: 100%; height: auto; border-radius: 0.5rem; \x7d
            </style>
        </head>
        <body>
            <a href=\"/\" class=\"back\">← Back to archive</a>
            "

/-- `tpl_from` without its leading `</h1>`. -/
def tpl_from_post : String := "
            <p style=\"color: var(--text-muted);\">From "

/-- The members of the group keyed by `p`: the node paths whose derived
parent is `p`, in table-iteration order. -/
def group_of (keys : List String) (p : String) : List String :=
  keys.filter (fun q => parent_path q == some p)

/-- Iterated `parent_path`. -/
def parent_iter : Nat → String → Option String
  | 0, p => some p
  | k + 1, p =>
    match parent_path p with
    | some q => parent_iter k q
    | none => none

/-- The children attached at one unfolding step, as a `filterMap`. -/
def attach_step (all_nodes : List (String × Node))
    (by_parent : List (String × List String)) (fuel : Nat) (cps : List String) : List Node :=
  cps.filterMap (fun cp =>
    (all_nodes.lookup cp).map (attach_children all_nodes by_parent fuel))

/-- A node as the walk created it: an empty-children directory or a
childless file. -/
def init_shape (node : Node) : Prop :=
  node.children = none ∨ node.children = some []

/-- A node consistent with the walk and the index: directories start with an
empty children list; files start with no children and own no group. -/
def node_ok (by_parent : List (String × List String)) (node : Node) : Prop :=
  (node.is_dir = true ∧ node.children = some []) ∨
  (node.is_dir = false ∧ node.children = none ∧ by_parent.lookup node.path = none)

/-- The longest child path recorded anywhere in the parent-to-children
index. -/
def max_child_len (bp : List (String × List String)) : Nat :=
  bp.foldr (fun kv acc => max acc (kv.2.foldr (fun c a => max a c.data.length) 0)) 0

/-- The walk of a content root holding one empty directory `d` and one
document `f.md` whose text has no thumbnail candidates. -/
def c1_entries : List FsEntry :=
  [FsEntry.mk ["d"] true none, FsEntry.mk ["f.md"] false (some [])]

/-- Well-formedness of a walk: no file is ever the derived parent of another
entry (a real filesystem walk satisfies this, since children only live under
directories). -/
def no_file_parents (entries : List FsEntry) : Prop :=
  ∀ e1 ∈ entries, ∀ e2 ∈ entries, e1.segs ≠ [] → e2.segs ≠ [] → e1.isDir = false →
    parent_path (vpath e2) ≠ some (vpath e1)

/-! ### Substring-search lemmas -/

theorem findSubIdx_isSome_iff (pat : List Char) (cs : List Char) :
    (findSubIdx pat cs).isSome = true ↔ pat <:+: cs := by
  induction cs with
  | nil =>
    by_cases h : pat.isPrefixOf ([] : List Char)
    · rw [findSubIdx, if_pos h]
      simp only [Option.isSome_some, true_iff, List.infix_nil]
      exact List.prefix_nil.mp (List.isPrefixOf_iff_prefix.mp h)
    · rw [findSubIdx, if_neg h]
      simp only [Option.isSome_none, List.infix_nil, Bool.false_eq_true, false_iff]
      intro hp
      subst hp
      exact h (List.isPrefixOf_iff_prefix.mpr List.nil_prefix)
  | cons c cs ih =>
    by_cases h : pat.isPrefixOf (c :: cs)
    · rw [findSubIdx, if_pos h]
      simp only [Option.isSome_some, true_iff]
      exact (List.isPrefixOf_iff_prefix.mp h).isInfix
    · rw [findSubIdx, if_neg h]
      simp only [Option.isSome_map']
      rw [ih, List.infix_cons_iff]
      constructor
      · exact fun hh => Or.inr hh
      · rintro (hp | hh)
        · exact absurd (List.isPrefixOf_iff_prefix.mpr hp) h
        · exact hh

theorem findSubIdx_some_prefix (pat : List Char) :
    ∀ (cs : List Char) (i : Nat), findSubIdx pat cs = some i → pat <+: cs.drop i := by
  intro cs
  induction cs with
  | nil =>
    intro i h
    by_cases hp : pat.isPrefixOf ([] : List Char)
    · rw [findSubIdx, if_pos hp] at h
      cases h
      exact List.isPrefixOf_iff_prefix.mp hp
    · rw [findSubIdx, if_neg hp] at h
      cases h
  | cons c cs ih =>
    intro i h
    by_cases hp : pat.isPrefixOf (c :: cs)
    · rw [findSubIdx, if_pos hp] at h
      cases h
      exact List.isPrefixOf_iff_prefix.mp hp
    · rw [findSubIdx, if_neg hp, Option.map_eq_some'] at h
      obtain ⟨j, hj, rfl⟩ := h
      simpa using ih j hj

theorem contains_sub_eq_true_iff (s pat : String) :
    contains_sub s pat = true ↔ pat.data <:+: s.data := by
  unfold contains_sub
  rw [← findSubIdx_isSome_iff]

/-! ### Claim C4: first qualifying raw-HTML match -/

/-- Claim C4: the extractor returns the first qualifying trusted-host URL
taken from a raw-HTML event, in document reading order; events that are not
raw HTML (in particular markdown-native images) are ignored, and when no
raw-HTML event qualifies the result is `none`.  Concretely, a document whose
events are a trusted-host `<img>` fragment followed by a markdown-native
image yields the trusted URL. -/
theorem C4_extractor_first_qualifying_match :
    (∀ evs : List MdEvent,
        extract_first_image evs = (evs.filterMap event_image).head?) ∧
    (∀ evs : List MdEvent, (∀ e ∈ evs, event_image e = none) →
        extract_first_image evs = none) ∧
    extract_first_image
        [MdEvent.html "<img src=\"https://github.com/user-attachments/abc123\">",
         MdEvent.image "http://other.example/y.png"] =
      some "https://github.com/user-attachments/abc123" := by
  have key : ∀ evs : List MdEvent,
      extract_first_image evs = (evs.filterMap event_image).head? := by
    intro evs
    induction evs with
    | nil => rfl
    | cons e rest ih =>
      cases e with
      | html h =>
        cases hh : find_image_in_html h with
        | none => simp [extract_first_image, event_image, List.filterMap_cons, hh, ih]
        | some v => simp [extract_first_image, event_image, List.filterMap_cons, hh]
      | image u => simpa [extract_first_image, event_image, List.filterMap_cons] using ih
      | text s => simpa [extract_first_image, event_image, List.filterMap_cons] using ih
      | other => simpa [extract_first_image, event_image, List.filterMap_cons] using ih
  refine ⟨key, ?_, by decide⟩
  intro evs hnone
  rw [key, List.filterMap_eq_nil_iff.mpr hnone]
  rfl

/-! ### Claim C10: extractor slice safety and continuation -/

/-- Claim C10: the extractor's slicing is always in bounds — a marker match
at index `i` guarantees at least the 41 marker characters from `i` on, so
skipping the 5 characters of `src="` stays inside the event text — and a
raw-HTML event that contains the marker but no closing double quote after it
yields nothing, with scanning continuing on the later events. -/
theorem C10_extractor_slice_safety :
    (∀ (cs : List Char) (i : Nat), findSubIdx src_marker.data cs = some i →
        i + 5 ≤ cs.length ∧ i + 41 ≤ cs.length) ∧
    (∀ (h : String) (evs : List MdEvent) (i : Nat),
        findSubIdx src_marker.data h.data = some i →
        (h.data.drop (i + 5)).contains '"' = false →
        extract_first_image (MdEvent.html h :: evs) = extract_first_image evs) := by
  constructor
  · intro cs i hfind
    have hpre := findSubIdx_some_prefix src_marker.data cs i hfind
    have hlen : src_marker.data.length ≤ (cs.drop i).length := hpre.length_le
    have hmarker : src_marker.data.length = 41 := by decide
    rw [List.length_drop] at hlen
    omega
  · intro h evs i hfind hquote
    have h1 : find_image_in_html h = none := by
      unfold find_image_in_html
      rw [hfind]
      simp only [hquote, Bool.false_eq_true, if_false]
    simp [extract_first_image, h1]

/-- Witness for C10: a raw-HTML event containing the marker with no closing
quote is skipped and the following event decides the result. -/
theorem C10_witness :
    extract_first_image
        [MdEvent.html "<img src=\"https://github.com/user-attachments/unterminated",
         MdEvent.html "<img src=\"https://github.com/user-attachments/ok\">"] =
      extract_first_image
        [MdEvent.html "<img src=\"https://github.com/user-attachments/ok\">"] :=
  C10_extractor_slice_safety.2
    "<img src=\"https://github.com/user-attachments/unterminated"
    [MdEvent.html "<img src=\"https://github.com/user-attachments/ok\">"]
    5 (by decide) (by decide)

/-! ### Order properties of the sort relation -/

theorem chars_le_cons_iff (x y : Char) (xs ys : List Char) :
    chars_le (x :: xs) (y :: ys) = true ↔ (x < y ∨ (x = y ∧ chars_le xs ys = true)) := by
  by_cases h1 : x < y
  · simp [chars_le, h1]
  · by_cases h2 : x = y
    · subst h2
      simp [chars_le, h1]
    · simp [chars_le, h1, h2]

theorem chars_le_total (a : List Char) : ∀ b, chars_le a b = true ∨ chars_le b a = true := by
  induction a with
  | nil => intro b; exact Or.inl rfl
  | cons x xs ih =>
    intro b
    cases b with
    | nil => exact Or.inr rfl
    | cons y ys =>
      rcases lt_trichotomy x y with h | h | h
      · exact Or.inl ((chars_le_cons_iff ..).mpr (Or.inl h))
      · subst h
        rcases ih ys with hh | hh
        · exact Or.inl ((chars_le_cons_iff ..).mpr (Or.inr ⟨rfl, hh⟩))
        · exact Or.inr ((chars_le_cons_iff ..).mpr (Or.inr ⟨rfl, hh⟩))
      · exact Or.inr ((chars_le_cons_iff ..).mpr (Or.inl h))

theorem chars_le_trans :
    ∀ (a b c : List Char), chars_le a b = true → chars_le b c = true → chars_le a c = true := by
  intro a
  induction a with
  | nil => intro b c _ _; rfl
  | cons x xs ih =>
    intro b c hab hbc
    cases b with
    | nil => exact absurd hab (by simp [chars_le])
    | cons y ys =>
      cases c with
      | nil => exact absurd hbc (by simp [chars_le])
      | cons z zs =>
        rw [chars_le_cons_iff] at hab hbc ⊢
        rcases hab with hab | ⟨rfl, hab⟩
        · rcases hbc with hbc | ⟨rfl, hbc⟩
          · exact Or.inl (lt_trans hab hbc)
          · exact Or.inl hab
        · rcases hbc with hbc | ⟨rfl, hbc⟩
          · exact Or.inl hbc
          · exact Or.inr ⟨rfl, ih ys zs hab hbc⟩

theorem chars_le_antisymm :
    ∀ (a b : List Char), chars_le a b = true → chars_le b a = true → a = b := by
  intro a
  induction a with
  | nil =>
    intro b _ hba
    cases b with
    | nil => rfl
    | cons y ys => exact absurd hba (by simp [chars_le])
  | cons x xs ih =>
    intro b hab hba
    cases b with
    | nil => exact absurd hab (by simp [chars_le])
    | cons y ys =>
      rw [chars_le_cons_iff] at hab hba
      rcases hab with hab | ⟨rfl, hab⟩
      · rcases hba with hba | ⟨heq, hba⟩
        · exact absurd hba (lt_asymm hab)
        · exact absurd (heq ▸ hab) (lt_irrefl _)
      · rcases hba with hba | ⟨heq, hba⟩
        · exact absurd hba (lt_irrefl _)
        · rw [ih ys hab hba]

theorem string_data_inj {a b : String} (h : a.data = b.data) : a = b := by
  cases a; cases b; cases h; rfl

instance : IsTotal String strLeRel :=
  ⟨fun a b => chars_le_total a.data b.data⟩

instance : IsTrans String strLeRel :=
  ⟨fun a b c => chars_le_trans a.data b.data c.data⟩

instance : IsAntisymm String strLeRel :=
  ⟨fun a b hab hba => string_data_inj (chars_le_antisymm a.data b.data hab hba)⟩

/-! ### Byte length bounds character length -/

theorem length_le_utf8ByteSize (s : String) : s.length ≤ s.utf8ByteSize := by
  cases s with
  | mk data =>
    show data.length ≤ String.utf8ByteSize.go data
    induction data with
    | nil => simp [String.utf8ByteSize.go]
    | cons c cs ih =>
      have := Char.utf8Size_pos c
      simp only [List.length_cons, String.utf8ByteSize.go]
      omega

/-! ### Claim C5: validation rejects before any filesystem access -/

/-- Claim C5: whenever the year exceeds 20 characters, or the title exceeds
300 characters, or either contains `..` or a path separator, the render
endpoint answers 400 Bad Request; the result is the same for every
filesystem state, so no filesystem access can influence it. -/
theorem C5_validation_rejects (fs_files : List (String × Option String))
    (md_to_html : String → String) (year title : String)
    (h : 20 < year.length ∨ 300 < title.length ∨
         contains_sub year ".." = true ∨ contains_sub title ".." = true ∨
         year.data.contains '/' = true ∨ title.data.contains '/' = true) :
    render_markdown fs_files md_to_html year title =
      (400, "<h1>400 Bad Request</h1><p>Invalid year or title</p>") := by
  have hv : validate_rejects year title = true := by
    unfold validate_rejects
    rcases h with h | h | h | h | h | h
    · have hb := length_le_utf8ByteSize year
      have : 20 < year.utf8ByteSize := lt_of_lt_of_le h hb
      simp [this]
    · have hb := length_le_utf8ByteSize title
      have : 300 < title.utf8ByteSize := lt_of_lt_of_le h hb
      simp [this]
    · simp [h]
    · simp [h]
    · simp [List.mem_of_elem_eq_true h]
    · simp [List.mem_of_elem_eq_true h]
  unfold render_markdown
  rw [hv]
  rfl

/-- Witness for C5: a title containing `..` is rejected with 400. -/
theorem C5_witness :
    render_markdown [("works/2024/secret.md", some "top secret")] id "2024" "../secret" =
      (400, "<h1>400 Bad Request</h1><p>Invalid year or title</p>") :=
  C5_validation_rejects [("works/2024/secret.md", some "top secret")] id "2024" "../secret"
    (Or.inr (Or.inr (Or.inr (Or.inl (by decide)))))

/-! ### Claim C6: missing or unreadable file yields 404 echoing the path -/

/-- Claim C6: for a (year, title) pair that passes validation, if the
resolved `works/<year>/<title>.md` is not a readable regular file — it is
absent, or reading it fails — the render endpoint answers 404 and the body
contains the attempted `{year}/{title}.md`; the embedding is a total
function, so no input raises a process-level fault. -/
theorem C6_missing_file_404 (fs_files : List (String × Option String))
    (md_to_html : String → String) (year title : String)
    (hval : validate_rejects year title = false)
    (hmiss : fs_files.lookup (path_join (path_join "works" year) (title ++ ".md")) = none ∨
             fs_files.lookup (path_join (path_join "works" year) (title ++ ".md")) = some none) :
    render_markdown fs_files md_to_html year title =
      (404, nf_pre ++ year ++ "/" ++ title ++ ".md" ++ nf_post) ∧
    contains_sub (render_markdown fs_files md_to_html year title).2
      (year ++ "/" ++ title ++ ".md") = true := by
  have hres : render_markdown fs_files md_to_html year title = not_found_html year title := by
    unfold render_markdown
    rw [hval]
    simp only [Bool.false_eq_true, if_false]
    by_cases hpre : ("works/".data.isPrefixOf
        (path_join (path_join "works" year) (title ++ ".md")).data)
    · rw [if_neg (by simpa using hpre)]
      rcases hmiss with hmiss | hmiss <;> rw [hmiss]
    · rw [if_pos (by simpa using hpre)]
  refine ⟨hres, ?_⟩
  rw [hres]
  rw [contains_sub_eq_true_iff]
  show (year ++ "/" ++ title ++ ".md").data <:+:
    (nf_pre ++ year ++ "/" ++ title ++ ".md" ++ nf_post).data
  refine ⟨nf_pre.data, nf_post.data, ?_⟩
  simp [String.data_append, List.append_assoc]

/-- Witness for C6: a validated pair with no file on disk produces the 404
page echoing `2024/absent.md`. -/
theorem C6_witness :
    render_markdown [] id "2024" "absent" =
      (404, nf_pre ++ "2024" ++ "/" ++ "absent" ++ ".md" ++ nf_post) ∧
    contains_sub (render_markdown [] id "2024" "absent").2
      ("2024" ++ "/" ++ "absent" ++ ".md") = true :=
  C6_missing_file_404 [] id "2024" "absent" (by decide) (Or.inl (by decide))

/-! ### Claim C7: successful render -/

/-- Claim C7: with `works/2024/my-post.md` containing `# Hello`, the render
endpoint answers 200; whenever the external markdown conversion of `# Hello`
contains `<h1>Hello</h1>`, so does the page body; and the displayed title is
`My Post` — in general the title has `-`/`_` replaced by spaces and each
word's first character capitalized, which on `my-post` yields `My Post`,
embedded in the page between `<h1>` and `</h1>`. -/
theorem C7_render_success (md_to_html : String → String)
    (hmd : contains_sub (md_to_html "# Hello") "<h1>Hello</h1>" = true) :
    render_markdown c7_fs md_to_html "2024" "my-post" =
      (200, page_template "My Post" "2024" (md_to_html "# Hello")) ∧
    display_title "my-post" = "My Post" ∧
    contains_sub (render_markdown c7_fs md_to_html "2024" "my-post").2
      "<h1>Hello</h1>" = true ∧
    contains_sub (render_markdown c7_fs md_to_html "2024" "my-post").2
      "<h1>My Post</h1>" = true := by
  have hr : render_markdown c7_fs md_to_html "2024" "my-post" =
      (200, page_template "My Post" "2024" (md_to_html "# Hello")) := rfl
  refine ⟨hr, by decide, ?_, ?_⟩
  · rw [hr]
    rw [contains_sub_eq_true_iff]
    have h1 : "<h1>Hello</h1>".data <:+: (md_to_html "# Hello").data :=
      (contains_sub_eq_true_iff ..).mp hmd
    have h2 : (md_to_html "# Hello").data <:+:
        (page_template "My Post" "2024" (md_to_html "# Hello")).data := by
      refine ⟨(tpl_head ++ "My Post" ++ " - " ++ "2024" ++ tpl_style ++ "My Post"
        ++ tpl_from ++ "2024" ++ tpl_body).data, tpl_tail.data, ?_⟩
      simp [page_template, String.data_append, List.append_assoc]
    exact h1.trans h2
  · rw [hr]
    rw [contains_sub_eq_true_iff]
    refine ⟨(tpl_head ++ "My Post" ++ " - " ++ "2024" ++ tpl_style_pre).data,
      (tpl_from_post ++ "2024" ++ tpl_body ++ md_to_html "# Hello" ++ tpl_tail).data, ?_⟩
    have estyle : tpl_style = tpl_style_pre ++ "<h1>" := rfl
    have efrom : tpl_from = "</h1>" ++ tpl_from_post := rfl
    have epat : ("<h1>My Post</h1>" : String) = "<h1>" ++ "My Post" ++ "</h1>" := rfl
    rw [epat, show page_template "My Post" "2024" (md_to_html "# Hello") =
      tpl_head ++ "My Post" ++ " - " ++ "2024" ++ (tpl_style_pre ++ "<h1>") ++ "My Post"
        ++ ("</h1>" ++ tpl_from_post) ++ "2024" ++ tpl_body ++ md_to_html "# Hello"
        ++ tpl_tail from by rw [page_template, ← estyle, ← efrom]]
    simp [String.data_append, List.append_assoc]

/-- Witness for C7, instantiating the markdown conversion with the constant
function returning `<h1>Hello</h1>`. -/
theorem C7_witness :
    render_markdown c7_fs (fun _ => "<h1>Hello</h1>") "2024" "my-post" =
      (200, page_template "My Post" "2024" "<h1>Hello</h1>") ∧
    display_title "my-post" = "My Post" ∧
    contains_sub (render_markdown c7_fs (fun _ => "<h1>Hello</h1>") "2024" "my-post").2
      "<h1>Hello</h1>" = true ∧
    contains_sub (render_markdown c7_fs (fun _ => "<h1>Hello</h1>") "2024" "my-post").2
      "<h1>My Post</h1>" = true :=
  C7_render_success (fun _ => "<h1>Hello</h1>") (by decide)

/-! ### Association-list lemmas -/

theorem lookup_mem {β : Type} {l : List (String × β)} {k : String} {v : β}
    (h : l.lookup k = some v) : (k, v) ∈ l := by
  induction l with
  | nil => cases h
  | cons kv rest ih =>
    obtain ⟨k0, v0⟩ := kv
    rw [List.lookup_cons] at h
    by_cases hk : k = k0
    · subst hk
      simp only [beq_self_eq_true] at h
      cases h
      exact List.mem_cons_self _ _
    · rw [show (k == k0) = false from beq_eq_false_iff_ne.mpr hk] at h
      exact List.mem_cons_of_mem _ (ih h)

theorem lookup_isSome_iff_mem_keys {β : Type} (l : List (String × β)) (k : String) :
    (l.lookup k).isSome = true ↔ k ∈ l.map Prod.fst := by
  induction l with
  | nil => simp [List.lookup]
  | cons kv rest ih =>
    obtain ⟨k0, v0⟩ := kv
    rw [List.lookup_cons]
    by_cases hk : k = k0
    · subst hk
      simp
    · rw [show (k == k0) = false from beq_eq_false_iff_ne.mpr hk]
      rw [ih]
      simp [hk]

theorem insert_node_lookup (m : List (String × Node)) (k : String) (v : Node) (k' : String) :
    (insert_node m k v).lookup k' = if k' = k then some v else m.lookup k' := by
  induction m with
  | nil =>
    by_cases h : k' = k
    · subst h; simp [insert_node, List.lookup_cons]
    · simp [insert_node, List.lookup_cons, h,
        show (k' == k) = false from beq_eq_false_iff_ne.mpr h]
  | cons kv rest ih =>
    obtain ⟨k0, v0⟩ := kv
    by_cases h0 : k0 = k
    · subst h0
      by_cases h : k' = k0
      · subst h
        simp [insert_node, List.lookup_cons]
      · simp [insert_node, List.lookup_cons, h,
          show (k' == k0) = false from beq_eq_false_iff_ne.mpr h]
    · by_cases h : k' = k0
      · subst h
        simp [insert_node, List.lookup_cons, h0]
      · simp only [insert_node, if_neg h0, List.lookup_cons,
          show (k' == k0) = false from beq_eq_false_iff_ne.mpr h]
        exact ih

theorem insert_node_mem {m : List (String × Node)} {k : String} {v : Node} {kv : String × Node}
    (h : kv ∈ insert_node m k v) : kv = (k, v) ∨ kv ∈ m := by
  induction m with
  | nil => simp [insert_node] at h; exact Or.inl h
  | cons kv0 rest ih =>
    obtain ⟨k0, v0⟩ := kv0
    by_cases h0 : k0 = k
    · subst h0
      simp only [insert_node, if_pos rfl] at h
      rcases List.mem_cons.mp h with h | h
      · exact Or.inl h
      · exact Or.inr (List.mem_cons_of_mem _ h)
    · simp only [insert_node, if_neg h0] at h
      rcases List.mem_cons.mp h with h | h
      · exact Or.inr (h ▸ List.mem_cons_self _ _)
      · rcases ih h with h | h
        · exact Or.inl h
        · exact Or.inr (List.mem_cons_of_mem _ h)

theorem insert_node_mem_keys (m : List (String × Node)) (k : String) (v : Node) (k' : String) :
    k' ∈ (insert_node m k v).map Prod.fst ↔ k' = k ∨ k' ∈ m.map Prod.fst := by
  induction m with
  | nil => simp [insert_node]
  | cons kv0 rest ih =>
    obtain ⟨k0, v0⟩ := kv0
    by_cases h0 : k0 = k
    · subst h0
      simp only [insert_node, if_pos rfl, if_true, List.map_cons, List.mem_cons]
      tauto
    · simp only [insert_node, if_neg h0, List.map_cons, List.mem_cons, ih]
      tauto

theorem insert_node_keys_nodup (m : List (String × Node)) (k : String) (v : Node)
    (h : (m.map Prod.fst).Nodup) : ((insert_node m k v).map Prod.fst).Nodup := by
  induction m with
  | nil => simp [insert_node]
  | cons kv0 rest ih =>
    obtain ⟨k0, v0⟩ := kv0
    simp only [List.map_cons, List.nodup_cons] at h
    by_cases h0 : k0 = k
    · subst h0
      simp only [insert_node, if_pos rfl, if_true, List.map_cons, List.nodup_cons]
      exact h
    · simp only [insert_node, if_neg h0, List.map_cons, List.nodup_cons,
        insert_node_mem_keys]
      refine ⟨?_, ih h.2⟩
      rintro (hc | hc)
      · exact h0 hc
      · exact h.1 hc

/-! ### Properties of the flat node table -/

theorem build_nodes_mem (entries : List FsEntry) :
    ∀ kv ∈ build_nodes entries, ∃ e ∈ entries, e.segs ≠ [] ∧ kv = (vpath e, mk_node e) := by
  have aux : ∀ (es : List FsEntry) (m : List (String × Node)) (kv : String × Node),
      kv ∈ es.foldl (fun m e => if e.segs = [] then m else insert_node m (vpath e) (mk_node e)) m →
      kv ∈ m ∨ ∃ e ∈ es, e.segs ≠ [] ∧ kv = (vpath e, mk_node e) := by
    intro es
    induction es with
    | nil => intro m kv h; exact Or.inl h
    | cons e es ih =>
      intro m kv h
      rw [List.foldl_cons] at h
      rcases ih _ kv h with h1 | h1
      · by_cases hs : e.segs = []
        · rw [if_pos hs] at h1
          exact Or.inl h1
        · rw [if_neg hs] at h1
          rcases insert_node_mem h1 with h2 | h2
          · exact Or.inr ⟨e, List.mem_cons_self _ _, hs, h2⟩
          · exact Or.inl h2
      · obtain ⟨e', he', hs, hkv⟩ := h1
        exact Or.inr ⟨e', List.mem_cons_of_mem _ he', hs, hkv⟩
  intro kv h
  rcases aux entries [] kv h with h1 | h1
  · cases h1
  · exact h1

theorem build_nodes_mem_keys (entries : List FsEntry) (e : FsEntry)
    (he : e ∈ entries) (hs : e.segs ≠ []) :
    vpath e ∈ (build_nodes entries).map Prod.fst := by
  have aux : ∀ (es : List FsEntry) (m : List (String × Node)) (k : String),
      (k ∈ m.map Prod.fst ∨ ∃ e ∈ es, e.segs ≠ [] ∧ vpath e = k) →
      k ∈ (es.foldl (fun m e => if e.segs = [] then m
        else insert_node m (vpath e) (mk_node e)) m).map Prod.fst := by
    intro es
    induction es with
    | nil =>
      intro m k h
      rcases h with h | ⟨e, he, _, _⟩
      · exact h
      · cases he
    | cons e0 es ih =>
      intro m k h
      rw [List.foldl_cons]
      rcases h with h | ⟨e1, he1, hs1, hv1⟩
      · refine ih _ _ (Or.inl ?_)
        by_cases h0 : e0.segs = []
        · rwa [if_pos h0]
        · rw [if_neg h0, insert_node_mem_keys]
          exact Or.inr h
      · rcases List.mem_cons.mp he1 with h1 | h1
        · subst h1
          refine ih _ _ (Or.inl ?_)
          rw [if_neg hs1, insert_node_mem_keys]
          exact Or.inl hv1.symm
        · exact ih _ _ (Or.inr ⟨e1, h1, hs1, hv1⟩)
  exact aux entries [] (vpath e) (Or.inr ⟨e, he, hs, rfl⟩)

theorem build_nodes_keys_nodup (entries : List FsEntry) :
    ((build_nodes entries).map Prod.fst).Nodup := by
  have aux : ∀ (es : List FsEntry) (m : List (String × Node)),
      (m.map Prod.fst).Nodup →
      ((es.foldl (fun m e => if e.segs = [] then m
        else insert_node m (vpath e) (mk_node e)) m).map Prod.fst).Nodup := by
    intro es
    induction es with
    | nil => intro m h; exact h
    | cons e0 es ih =>
      intro m h
      rw [List.foldl_cons]
      refine ih _ ?_
      by_cases h0 : e0.segs = []
      · rwa [if_pos h0]
      · rw [if_neg h0]
        exact insert_node_keys_nodup _ _ _ h
  exact aux entries [] (by simp)

theorem vpath_ne_root (e : FsEntry) (hs : e.segs ≠ []) : vpath e ≠ "/works" := by
  unfold vpath
  rw [if_neg hs]
  intro hc
  have : ("/works/" ++ String.intercalate "/" e.segs).data.length = ("/works" : String).data.length := by
    rw [hc]
  rw [String.data_append, List.length_append] at this
  have h6 : ("/works" : String).data.length = 6 := by decide
  have h7 : ("/works/" : String).data.length = 7 := by decide
  omega

theorem build_nodes_lookup_root (entries : List FsEntry) :
    (build_nodes entries).lookup "/works" = none := by
  cases h : (build_nodes entries).lookup "/works" with
  | none => rfl
  | some v =>
    obtain ⟨e, _, hs, hkv⟩ := build_nodes_mem entries _ (lookup_mem h)
    exact absurd (congrArg Prod.fst hkv).symm (vpath_ne_root e hs)

theorem erase_key_of_not_mem (m : List (String × Node)) (k : String)
    (h : k ∉ m.map Prod.fst) : erase_key m k = m := by
  induction m with
  | nil => rfl
  | cons kv rest ih =>
    obtain ⟨k0, v0⟩ := kv
    simp only [List.map_cons, List.mem_cons, not_or] at h
    rw [erase_key, if_neg (fun hc => h.1 hc.symm), ih h.2]

theorem build_nodes_path (entries : List FsEntry) (k : String) (m : Node)
    (h : (build_nodes entries).lookup k = some m) : m.path = k := by
  obtain ⟨e, _, hs, hkv⟩ := build_nodes_mem entries _ (lookup_mem h)
  obtain ⟨h1, h2⟩ := Prod.mk.injEq .. ▸ hkv
  rw [h2, h1]
  rfl

theorem build_nodes_shape (entries : List FsEntry) (k : String) (m : Node)
    (h : (build_nodes entries).lookup k = some m) :
    (m.is_dir = true ∧ m.children = some []) ∨ (m.is_dir = false ∧ m.children = none) := by
  obtain ⟨e, _, hs, hkv⟩ := build_nodes_mem entries _ (lookup_mem h)
  obtain ⟨h1, h2⟩ := Prod.mk.injEq .. ▸ hkv
  subst h2
  cases hd : e.isDir
  · right
    constructor
    · simp [mk_node, Node.is_dir, hd]
    · simp [mk_node, Node.children, hd]
  · left
    constructor
    · simp [mk_node, Node.is_dir, hd]
    · simp [mk_node, Node.children, hd]

/-! ### Properties of the parent-to-children index -/

theorem add_group_lookup (m : List (String × List String)) (k v : String) (k' : String) :
    (add_group m k v).lookup k' =
      if k' = k then some (((m.lookup k).getD []) ++ [v]) else m.lookup k' := by
  induction m with
  | nil =>
    by_cases h : k' = k
    · subst h; simp [add_group, List.lookup_cons]
    · simp [add_group, List.lookup_cons, h,
        show (k' == k) = false from beq_eq_false_iff_ne.mpr h]
  | cons kv rest ih =>
    obtain ⟨k0, v0⟩ := kv
    by_cases h0 : k0 = k
    · subst h0
      by_cases h : k' = k0
      · subst h
        simp [add_group, List.lookup_cons]
      · simp [add_group, List.lookup_cons, h,
          show (k' == k0) = false from beq_eq_false_iff_ne.mpr h]
    · by_cases h : k' = k0
      · subst h
        simp [add_group, List.lookup_cons, h0]
      · simp only [add_group, if_neg h0, List.lookup_cons,
          show (k' == k0) = false from beq_eq_false_iff_ne.mpr h,
          show (k == k0) = false from beq_eq_false_iff_ne.mpr (fun hc => h0 hc.symm)]
        exact ih

theorem build_groups_aux_lookup (keys : List String) :
    ∀ (m : List (String × List String)) (p : String),
      (keys.foldl (fun m q =>
        match parent_path q with
        | some par => add_group m par q
        | none => m) m).lookup p =
      (match m.lookup p with
       | some vs => some (vs ++ group_of keys p)
       | none => if group_of keys p = [] then none else some (group_of keys p)) := by
  induction keys with
  | nil =>
    intro m p
    cases h : m.lookup p <;> simp [group_of, h]
  | cons q keys ih =>
    intro m p
    rw [List.foldl_cons]
    cases hq : parent_path q with
    | none =>
      have hg : group_of (q :: keys) p = group_of keys p := by
        simp [group_of, List.filter_cons, hq]
      rw [hg]
      exact ih m p
    | some par =>
      by_cases hpar : par = p
      · subst hpar
        have hg : group_of (q :: keys) par = q :: group_of keys par := by
          simp [group_of, List.filter_cons, hq]
        rw [hg, ih (add_group m par q) par, add_group_lookup, if_pos rfl]
        cases hm : m.lookup par with
        | none => simp
        | some vs => simp
      · have hg : group_of (q :: keys) p = group_of keys p := by
          have : ((parent_path q == some p)) = false := by
            rw [hq]
            simp [hpar]
          simp [group_of, List.filter_cons, this]
        rw [hg, ih (add_group m par q) p, add_group_lookup, if_neg (fun hc => hpar hc.symm)]
  
theorem build_groups_lookup (keys : List String) (p : String) :
    (build_groups keys).lookup p =
      if group_of keys p = [] then none else some (group_of keys p) := by
  have := build_groups_aux_lookup keys [] p
  rw [build_groups]
  simpa using this

theorem sort_groups_lookup (gs : List (String × List String)) (p : String) :
    (sort_groups gs).lookup p = (gs.lookup p).map (List.insertionSort strLeRel) := by
  induction gs with
  | nil => simp [sort_groups]
  | cons kv rest ih =>
    obtain ⟨k0, vs0⟩ := kv
    by_cases h : p = k0
    · subst h
      simp [sort_groups, List.lookup_cons]
    · simp only [sort_groups, List.map_cons, List.lookup_cons,
        show (p == k0) = false from beq_eq_false_iff_ne.mpr h]
      exact ih

/-! ### Parent chains strictly shorten paths -/

theorem string_length_data (s : String) : s.length = s.data.length := by
  cases s
  rfl

theorem parent_path_length {p q : String} (h : parent_path p = some q) :
    q.data.length < p.data.length := by
  unfold parent_path at h
  simp only [] at h
  cases hd : (trim_end_slashes p.data).reverse.dropWhile (fun c => c ≠ '/') with
  | nil => rw [hd] at h; cases h
  | cons c rest =>
    rw [hd] at h
    simp only [] at h
    by_cases hr : rest = []
    · rw [if_pos hr] at h; cases h
    · rw [if_neg hr] at h
      cases h
      have hsplit := List.takeWhile_append_dropWhile (fun c => c ≠ '/')
        (trim_end_slashes p.data).reverse
      rw [hd] at hsplit
      have hlen := congrArg List.length hsplit
      simp only [List.length_append, List.length_cons, List.length_reverse] at hlen
      have htrim : (trim_end_slashes p.data).length ≤ p.data.length := by
        unfold trim_end_slashes
        have := ((List.dropWhile_suffix (l := p.data.reverse)
          (fun c => c = '/')).sublist).length_le
        simpa using this
      show rest.reverse.length < p.data.length
      rw [List.length_reverse]
      omega

theorem parent_iter_add (a b : Nat) (p : String) :
    parent_iter (a + b) p =
      match parent_iter a p with
      | some q => parent_iter b q
      | none => none := by
  induction a generalizing p with
  | zero => simp [parent_iter]
  | succ a ih =>
    have hc : a + 1 + b = (a + b) + 1 := by omega
    rw [hc]
    simp only [parent_iter]
    cases hpp : parent_path p with
    | none => simp
    | some q => simp [ih q]

theorem parent_iter_length (k : Nat) :
    ∀ (p q : String), parent_iter k p = some q → q.data.length + k ≤ p.data.length := by
  induction k with
  | zero =>
    intro p q h
    simp only [parent_iter, Option.some_inj] at h
    subst h
    omega
  | succ k ih =>
    intro p q h
    simp only [parent_iter] at h
    cases hpp : parent_path p with
    | none => rw [hpp] at h; cases h
    | some r =>
      rw [hpp] at h
      have h1 := ih r q h
      have h2 := parent_path_length hpp
      omega

theorem parent_iter_unique {j k : Nat} {p q : String}
    (hj : parent_iter j p = some q) (hk : parent_iter k p = some q) : j = k := by
  have aux : ∀ (j d : Nat) (p q : String),
      parent_iter j p = some q → parent_iter (j + d) p = some q → d = 0 := by
    intro j d p q h1 h2
    rw [parent_iter_add, h1] at h2
    have := parent_iter_length d q q h2
    omega
  rcases Nat.le_total j k with h | h
  · obtain ⟨d, rfl⟩ := Nat.le.dest h
    have := aux j d p q hj hk
    omega
  · obtain ⟨d, rfl⟩ := Nat.le.dest h
    have := aux k d p q hk hj
    omega

/-! ### Basic facts about `attach_children` and `tree_nodes` -/

theorem withChildren_path (n : Node) (c : Option (List Node)) :
    (n.withChildren c).path = n.path := by
  cases n
  rfl

theorem withChildren_is_dir (n : Node) (c : Option (List Node)) :
    (n.withChildren c).is_dir = n.is_dir := by
  cases n
  rfl

theorem withChildren_children (n : Node) (c : Option (List Node)) :
    (n.withChildren c).children = c := by
  cases n
  rfl

theorem attach_children_path (all_nodes : List (String × Node))
    (by_parent : List (String × List String)) (fuel : Nat) (node : Node) :
    (attach_children all_nodes by_parent fuel node).path = node.path := by
  cases fuel with
  | zero => rfl
  | succ fuel =>
    rw [attach_children]
    cases hbp : by_parent.lookup node.path with
    | none => rfl
    | some cps => exact withChildren_path ..

theorem attach_children_is_dir (all_nodes : List (String × Node))
    (by_parent : List (String × List String)) (fuel : Nat) (node : Node) :
    (attach_children all_nodes by_parent fuel node).is_dir = node.is_dir := by
  cases fuel with
  | zero => rfl
  | succ fuel =>
    rw [attach_children]
    cases hbp : by_parent.lookup node.path with
    | none => rfl
    | some cps => exact withChildren_is_dir ..

theorem attach_fold_eq_filterMap (all_nodes : List (String × Node))
    (by_parent : List (String × List String)) (fuel : Nat) (cps : List String) :
    ∀ (init : List Node),
      cps.foldl (fun acc cp =>
        match all_nodes.lookup cp with
        | some child => acc ++ [attach_children all_nodes by_parent fuel child]
        | none => acc) init =
      init ++ cps.filterMap (fun cp =>
        (all_nodes.lookup cp).map (attach_children all_nodes by_parent fuel)) := by
  induction cps with
  | nil => intro init; simp
  | cons cp cps ih =>
    intro init
    rw [List.foldl_cons, List.filterMap_cons]
    cases hc : all_nodes.lookup cp with
    | none => simpa using ih init
    | some child =>
      simp only [Option.map_some']
      rw [ih (init ++ [attach_children all_nodes by_parent fuel child])]
      simp

theorem attach_children_succ (all_nodes : List (String × Node))
    (by_parent : List (String × List String)) (fuel : Nat) (node : Node) :
    attach_children all_nodes by_parent (fuel + 1) node =
      match by_parent.lookup node.path with
      | none => node
      | some cps =>
        node.withChildren (if (attach_step all_nodes by_parent fuel cps).isEmpty then none
          else some (attach_step all_nodes by_parent fuel cps)) := by
  rw [attach_children]
  cases hbp : by_parent.lookup node.path with
  | none => rfl
  | some cps =>
    simp only [attach_step]
    rw [attach_fold_eq_filterMap]
    simp

theorem tree_nodes_unfold (n : Node) :
    tree_nodes n = n :: (match n.children with
      | none => []
      | some cs => tree_nodes_list cs) := by
  cases n with
  | mk nm p d c t => cases c <;> rfl

theorem mem_tree_nodes_list {m : Node} {l : List Node} :
    m ∈ tree_nodes_list l ↔ ∃ n ∈ l, m ∈ tree_nodes n := by
  induction l with
  | nil => simp [tree_nodes_list]
  | cons n ns ih =>
    rw [tree_nodes_list]
    simp [ih]

theorem tree_nodes_list_eq_flatMap (l : List Node) :
    tree_nodes_list l = l.flatMap tree_nodes := by
  induction l with
  | nil => rfl
  | cons n ns ih =>
    rw [tree_nodes_list, ih]
    rfl

theorem self_mem_tree_nodes (n : Node) : n ∈ tree_nodes n := by
  rw [tree_nodes_unfold]
  exact List.mem_cons_self _ _

theorem attach_step_paths (all_nodes : List (String × Node))
    (by_parent : List (String × List String)) (fuel : Nat)
    (Hpath : ∀ k m, all_nodes.lookup k = some m → m.path = k) (cps : List String) :
    (attach_step all_nodes by_parent fuel cps).map Node.path =
      cps.filter (fun cp => (all_nodes.lookup cp).isSome) := by
  induction cps with
  | nil => rfl
  | cons cp cps ih =>
    rw [attach_step, List.filterMap_cons]
    cases hc : all_nodes.lookup cp with
    | none =>
      rw [List.filter_cons]
      simp only [hc, Option.isSome_none, Bool.false_eq_true, if_false]
      exact ih
    | some child =>
      rw [List.filter_cons]
      simp only [hc, Option.isSome_some, if_true, Option.map_some', List.map_cons]
      rw [attach_children_path, Hpath cp child hc]
      exact congrArg (cp :: ·) ih

theorem attach_step_ne_nil (all_nodes : List (String × Node))
    (by_parent : List (String × List String)) (fuel : Nat) (cps : List String)
    (hne : cps ≠ []) (hfound : ∀ cp ∈ cps, (all_nodes.lookup cp).isSome = true) :
    attach_step all_nodes by_parent fuel cps ≠ [] := by
  cases cps with
  | nil => exact absurd rfl hne
  | cons cp cps =>
    have h1 := hfound cp (List.mem_cons_self _ _)
    obtain ⟨child, hc⟩ := Option.isSome_iff_exists.mp h1
    rw [attach_step, List.filterMap_cons, hc]
    simp

theorem mem_attach_step {all_nodes : List (String × Node)}
    {by_parent : List (String × List String)} {fuel : Nat} {cps : List String} {c : Node}
    (h : c ∈ attach_step all_nodes by_parent fuel cps) :
    ∃ cp ∈ cps, ∃ child, all_nodes.lookup cp = some child ∧
      c = attach_children all_nodes by_parent fuel child := by
  rw [attach_step] at h
  obtain ⟨cp, hcp, hmap⟩ := List.mem_filterMap.mp h
  cases hc : all_nodes.lookup cp with
  | none => rw [hc] at hmap; cases hmap
  | some child =>
    rw [hc] at hmap
    simp only [Option.map_some', Option.some_inj] at hmap
    exact ⟨cp, hcp, child, hc, hmap.symm⟩

/-! ### Master invariants of the attachment recursion -/

theorem init_shape_nodes {node : Node} (hsh : init_shape node) :
    ∀ m ∈ tree_nodes node, m = node ∧ ∀ cs, m.children = some cs → cs = [] := by
  intro m hm
  rcases hsh with h | h
  · rw [tree_nodes_unfold, h] at hm
    simp only [List.mem_singleton] at hm
    subst hm
    refine ⟨rfl, fun cs hcs => ?_⟩
    rw [h] at hcs
    cases hcs
  · rw [tree_nodes_unfold, h] at hm
    simp only [tree_nodes_list, List.mem_singleton] at hm
    subst hm
    refine ⟨rfl, fun cs hcs => ?_⟩
    rw [h] at hcs
    cases hcs
    rfl

theorem attach_sorted (all_nodes : List (String × Node))
    (by_parent : List (String × List String))
    (Hpath : ∀ k m, all_nodes.lookup k = some m → m.path = k)
    (Hshape : ∀ k m, all_nodes.lookup k = some m → init_shape m)
    (Hsorted : ∀ p cps, by_parent.lookup p = some cps → List.Pairwise strLeRel cps) :
    ∀ (fuel : Nat) (node : Node), init_shape node →
      ∀ m ∈ tree_nodes (attach_children all_nodes by_parent fuel node),
        ∀ cs, m.children = some cs → List.Pairwise strLeRel (cs.map Node.path) := by
  intro fuel
  induction fuel with
  | zero =>
    intro node hsh m hm cs hcs
    rw [show attach_children all_nodes by_parent 0 node = node from rfl] at hm
    rw [(init_shape_nodes hsh m hm).2 cs hcs]
    simp
  | succ fuel ih =>
    intro node hsh m hm cs hcs
    rw [attach_children_succ] at hm
    cases hbp : by_parent.lookup node.path with
    | none =>
      rw [hbp] at hm
      simp only [] at hm
      rw [(init_shape_nodes hsh m hm).2 cs hcs]
      simp
    | some cps =>
      rw [hbp] at hm
      simp only [] at hm
      by_cases hemp : (attach_step all_nodes by_parent fuel cps).isEmpty = true
      · rw [if_pos hemp] at hm
        rw [tree_nodes_unfold, withChildren_children] at hm
        simp only [List.mem_singleton] at hm
        subst hm
        rw [withChildren_children] at hcs
        cases hcs
      · rw [if_neg hemp] at hm
        rw [tree_nodes_unfold, withChildren_children] at hm
        simp only [] at hm
        rcases List.mem_cons.mp hm with hm | hm
        · subst hm
          rw [withChildren_children] at hcs
          cases hcs
          rw [attach_step_paths all_nodes by_parent fuel Hpath]
          exact (Hsorted _ _ hbp).filter _
        · obtain ⟨c, hc, hmc⟩ := mem_tree_nodes_list.mp hm
          obtain ⟨cp, hcp, child, hchild, rfl⟩ := mem_attach_step hc
          exact ih child (Hshape _ _ hchild) m hmc cs hcs

theorem attach_parent_link (all_nodes : List (String × Node))
    (by_parent : List (String × List String))
    (Hpath : ∀ k m, all_nodes.lookup k = some m → m.path = k)
    (Hshape : ∀ k m, all_nodes.lookup k = some m → init_shape m)
    (Hmem : ∀ p cps, by_parent.lookup p = some cps → ∀ cp ∈ cps, parent_path cp = some p) :
    ∀ (fuel : Nat) (node : Node), init_shape node →
      ∀ m ∈ tree_nodes (attach_children all_nodes by_parent fuel node),
        ∀ cs, m.children = some cs → ∀ c ∈ cs, parent_path c.path = some m.path := by
  intro fuel
  induction fuel with
  | zero =>
    intro node hsh m hm cs hcs c hc
    rw [show attach_children all_nodes by_parent 0 node = node from rfl] at hm
    rw [(init_shape_nodes hsh m hm).2 cs hcs] at hc
    cases hc
  | succ fuel ih =>
    intro node hsh m hm cs hcs c hc
    rw [attach_children_succ] at hm
    cases hbp : by_parent.lookup node.path with
    | none =>
      rw [hbp] at hm
      simp only [] at hm
      rw [(init_shape_nodes hsh m hm).2 cs hcs] at hc
      cases hc
    | some cps =>
      rw [hbp] at hm
      simp only [] at hm
      by_cases hemp : (attach_step all_nodes by_parent fuel cps).isEmpty = true
      · rw [if_pos hemp] at hm
        rw [tree_nodes_unfold, withChildren_children] at hm
        simp only [List.mem_singleton] at hm
        subst hm
        rw [withChildren_children] at hcs
        cases hcs
      · rw [if_neg hemp] at hm
        rw [tree_nodes_unfold, withChildren_children] at hm
        simp only [] at hm
        rcases List.mem_cons.mp hm with hm | hm
        · subst hm
          rw [withChildren_children] at hcs
          cases hcs
          obtain ⟨cp, hcp, child, hchild, rfl⟩ := mem_attach_step hc
          rw [attach_children_path, Hpath cp child hchild, withChildren_path]
          exact Hmem _ _ hbp cp hcp
        · obtain ⟨c0, hc0, hmc⟩ := mem_tree_nodes_list.mp hm
          obtain ⟨cp, hcp, child, hchild, rfl⟩ := mem_attach_step hc0
          exact ih child (Hshape _ _ hchild) m hmc cs hcs c hc

theorem node_ok_init_shape {by_parent : List (String × List String)} {node : Node}
    (h : node_ok by_parent node) : init_shape node := by
  rcases h with ⟨_, h⟩ | ⟨_, h, _⟩
  · exact Or.inr h
  · exact Or.inl h

theorem attach_shape (all_nodes : List (String × Node))
    (by_parent : List (String × List String))
    (Hok : ∀ k m, all_nodes.lookup k = some m → node_ok by_parent m)
    (Hfound : ∀ p cps, by_parent.lookup p = some cps →
      ∀ cp ∈ cps, (all_nodes.lookup cp).isSome = true)
    (Hne : ∀ p cps, by_parent.lookup p = some cps → cps ≠ []) :
    ∀ (fuel : Nat) (node : Node), node_ok by_parent node →
      ∀ m ∈ tree_nodes (attach_children all_nodes by_parent fuel node),
        (m.is_dir = false → m.children = none) ∧
        (m.is_dir = true → ∃ cs, m.children = some cs) := by
  intro fuel
  induction fuel with
  | zero =>
    intro node hok m hm
    rw [show attach_children all_nodes by_parent 0 node = node from rfl] at hm
    rw [(init_shape_nodes (node_ok_init_shape hok) m hm).1]
    rcases hok with ⟨hd, hc⟩ | ⟨hd, hc, _⟩
    · exact ⟨fun hf => absurd (hf ▸ hd) (by simp), fun _ => ⟨[], hc⟩⟩
    · exact ⟨fun _ => hc, fun ht => absurd (ht ▸ hd) (by simp)⟩
  | succ fuel ih =>
    intro node hok m hm
    rw [attach_children_succ] at hm
    cases hbp : by_parent.lookup node.path with
    | none =>
      rw [hbp] at hm
      simp only [] at hm
      rw [(init_shape_nodes (node_ok_init_shape hok) m hm).1]
      rcases hok with ⟨hd, hc⟩ | ⟨hd, hc, _⟩
      · exact ⟨fun hf => absurd (hf ▸ hd) (by simp), fun _ => ⟨[], hc⟩⟩
      · exact ⟨fun _ => hc, fun ht => absurd (ht ▸ hd) (by simp)⟩
    | some cps =>
      rcases hok with ⟨hd, hc⟩ | ⟨hd, hc, hbpn⟩
      · rw [hbp] at hm
        simp only [] at hm
        by_cases hemp : (attach_step all_nodes by_parent fuel cps).isEmpty = true
        · exfalso
          exact attach_step_ne_nil all_nodes by_parent fuel cps
            (Hne _ _ hbp) (Hfound _ _ hbp) (List.isEmpty_iff.mp hemp)
        · rw [if_neg hemp] at hm
          rw [tree_nodes_unfold, withChildren_children] at hm
          simp only [] at hm
          rcases List.mem_cons.mp hm with hm | hm
          · subst hm
            constructor
            · intro hf
              rw [withChildren_is_dir] at hf
              exact absurd (hf ▸ hd) (by simp)
            · intro _
              exact ⟨attach_step all_nodes by_parent fuel cps, withChildren_children ..⟩
          · obtain ⟨c0, hc0, hmc⟩ := mem_tree_nodes_list.mp hm
            obtain ⟨cp, hcp, child, hchild, rfl⟩ := mem_attach_step hc0
            exact ih child (Hok _ _ hchild) m hmc
      · rw [hbpn] at hbp
        cases hbp

theorem init_shape_tree_nodes {node : Node} (hsh : init_shape node) :
    tree_nodes node = [node] := by
  rcases hsh with h | h
  · rw [tree_nodes_unfold, h]
  · rw [tree_nodes_unfold, h]
    rfl

theorem parent_iter_snoc {k : Nat} {p q r : String}
    (h1 : parent_iter k p = some q) (h2 : parent_path q = some r) :
    parent_iter (k + 1) p = some r := by
  rw [parent_iter_add, h1]
  simp [parent_iter, h2]

theorem attach_nodup (all_nodes : List (String × Node))
    (by_parent : List (String × List String))
    (Hpath : ∀ k m, all_nodes.lookup k = some m → m.path = k)
    (Hshape : ∀ k m, all_nodes.lookup k = some m → init_shape m)
    (Hmem : ∀ p cps, by_parent.lookup p = some cps → ∀ cp ∈ cps, parent_path cp = some p)
    (Hnodup : ∀ p cps, by_parent.lookup p = some cps → cps.Nodup) :
    ∀ (fuel : Nat) (node : Node), init_shape node →
      ((tree_nodes (attach_children all_nodes by_parent fuel node)).map Node.path).Nodup ∧
      (∀ p ∈ (tree_nodes (attach_children all_nodes by_parent fuel node)).map Node.path,
        ∃ k : Nat, parent_iter k p = some node.path) := by
  intro fuel
  induction fuel with
  | zero =>
    intro node hsh
    rw [show attach_children all_nodes by_parent 0 node = node from rfl,
      init_shape_tree_nodes hsh]
    refine ⟨by simp, ?_⟩
    intro p hp
    simp only [List.map_cons, List.map_nil, List.mem_singleton] at hp
    subst hp
    exact ⟨0, rfl⟩
  | succ fuel ih =>
    intro node hsh
    rw [attach_children_succ]
    cases hbp : by_parent.lookup node.path with
    | none =>
      simp only []
      rw [init_shape_tree_nodes hsh]
      refine ⟨by simp, ?_⟩
      intro p hp
      simp only [List.map_cons, List.map_nil, List.mem_singleton] at hp
      subst hp
      exact ⟨0, rfl⟩
    | some cps =>
      simp only []
      by_cases hemp : (attach_step all_nodes by_parent fuel cps).isEmpty = true
      · rw [if_pos hemp, init_shape_tree_nodes (Or.inl (withChildren_children ..))]
        refine ⟨by simp, ?_⟩
        intro p hp
        simp only [List.map_cons, List.map_nil, List.mem_singleton] at hp
        subst hp
        rw [withChildren_path]
        exact ⟨0, rfl⟩
      · rw [if_neg hemp]
        rw [tree_nodes_unfold, withChildren_children]
        simp only []
        rw [tree_nodes_list_eq_flatMap]
        have hchmem : ∀ c ∈ attach_step all_nodes by_parent fuel cps,
            ∃ cp ∈ cps, ∃ child, all_nodes.lookup cp = some child ∧
              c = attach_children all_nodes by_parent fuel child :=
          fun c hc => mem_attach_step hc
        have hcpath : ∀ c ∈ attach_step all_nodes by_parent fuel cps,
            parent_path c.path = some node.path := by
          intro c hc
          obtain ⟨cp, hcp, child, hchild, rfl⟩ := hchmem c hc
          rw [attach_children_path, Hpath cp child hchild]
          exact Hmem _ _ hbp cp hcp
        have hsub : ∀ c ∈ attach_step all_nodes by_parent fuel cps,
            ((tree_nodes c).map Node.path).Nodup ∧
            (∀ p ∈ (tree_nodes c).map Node.path, ∃ k, parent_iter k p = some c.path) := by
          intro c hc
          obtain ⟨cp, hcp, child, hchild, rfl⟩ := hchmem c hc
          rw [attach_children_path]
          exact ih child (Hshape _ _ hchild)
        have hchain : ∀ p ∈ (((attach_step all_nodes by_parent fuel cps).flatMap
            tree_nodes).map Node.path),
            ∃ k, 1 ≤ k ∧ parent_iter k p = some node.path := by
          intro p hp
          obtain ⟨m, hm, rfl⟩ := List.mem_map.mp hp
          obtain ⟨c, hcch, hmc⟩ := List.mem_flatMap.mp hm
          obtain ⟨k, hk⟩ := (hsub c hcch).2 m.path (List.mem_map_of_mem Node.path hmc)
          exact ⟨k + 1, by omega, parent_iter_snoc hk (hcpath c hcch)⟩
        constructor
        · simp only [List.map_cons]
          rw [List.nodup_cons]
          constructor
          · intro hpmem
            rw [withChildren_path] at hpmem
            obtain ⟨k, hk1, hk⟩ := hchain _ hpmem
            have := parent_iter_length k node.path node.path hk
            omega
          · rw [List.map_flatMap, List.nodup_flatMap]
            refine ⟨fun c hc => (hsub c hc).1, ?_⟩
            have hpw : List.Pairwise (fun a b : Node => a.path ≠ b.path)
                (attach_step all_nodes by_parent fuel cps) := by
              have h1 : ((attach_step all_nodes by_parent fuel cps).map Node.path).Nodup := by
                rw [attach_step_paths all_nodes by_parent fuel Hpath]
                exact (Hnodup _ _ hbp).filter _
              exact List.pairwise_map.mp h1
            refine hpw.imp_of_mem ?_
            intro a b ha hb hab p hpa hpb
            obtain ⟨k1, hk1⟩ := (hsub a ha).2 p hpa
            obtain ⟨k2, hk2⟩ := (hsub b hb).2 p hpb
            have ha1 := parent_iter_snoc hk1 (hcpath a ha)
            have hb1 := parent_iter_snoc hk2 (hcpath b hb)
            have hkk : k1 + 1 = k2 + 1 := parent_iter_unique ha1 hb1
            have hkk2 : k1 = k2 := by omega
            subst hkk2
            rw [hk1] at hk2
            exact hab (Option.some_inj.mp hk2)
        · intro p hp
          simp only [List.map_cons, List.mem_cons] at hp
          rcases hp with hp | hp
          · subst hp
            rw [withChildren_path]
            exact ⟨0, rfl⟩
          · obtain ⟨k, _, hk⟩ := hchain p hp
            exact ⟨k, hk⟩

/-! ### Congruence: the attachment only consults the two tables through lookup -/

theorem attach_children_congr (an1 an2 : List (String × Node))
    (bp1 bp2 : List (String × List String))
    (han : ∀ k, an1.lookup k = an2.lookup k)
    (hbp : ∀ p, bp1.lookup p = bp2.lookup p) :
    ∀ (fuel : Nat) (node : Node),
      attach_children an1 bp1 fuel node = attach_children an2 bp2 fuel node := by
  intro fuel
  induction fuel with
  | zero => intro node; rfl
  | succ fuel ih =>
    intro node
    rw [attach_children_succ, attach_children_succ, ← hbp node.path]
    cases hb : bp1.lookup node.path with
    | none => rfl
    | some cps =>
      have hstep : attach_step an1 bp1 fuel cps = attach_step an2 bp2 fuel cps := by
        rw [attach_step, attach_step]
        refine List.filterMap_congr ?_
        intro cp _
        rw [← han cp]
        cases an1.lookup cp with
        | none => rfl
        | some child => simp [ih child]
      simp only []
      rw [hstep]

/-! ### Termination of the attachment recursion (claim C9 machinery) -/

theorem inner_max_bound (cs : List String) (c : String) (hc : c ∈ cs) :
    c.data.length ≤ cs.foldr (fun c a => max a c.data.length) 0 := by
  induction cs with
  | nil => cases hc
  | cons c0 rest ih =>
    rw [List.foldr_cons]
    rcases List.mem_cons.mp hc with h | h
    · subst h
      exact le_max_right _ _
    · exact le_trans (ih h) (le_max_left _ _)

theorem max_child_len_bound {bp : List (String × List String)} {k : String} {cs : List String}
    (hmem : (k, cs) ∈ bp) {c : String} (hc : c ∈ cs) :
    c.data.length ≤ max_child_len bp := by
  induction bp with
  | nil => cases hmem
  | cons kv rest ih =>
    rw [max_child_len, List.foldr_cons]
    rcases List.mem_cons.mp hmem with h | h
    · subst h
      exact le_trans (inner_max_bound cs c hc) (le_max_right _ _)
    · exact le_trans (ih h) (le_max_left _ _)

theorem attach_children_stable (all_nodes : List (String × Node))
    (by_parent : List (String × List String))
    (Hpath : ∀ k m, all_nodes.lookup k = some m → m.path = k)
    (Hlen : ∀ k cs, by_parent.lookup k = some cs → ∀ c ∈ cs, k.data.length < c.data.length) :
    ∀ (f1 : Nat) (node : Node) (f2 : Nat),
      max 1 (max_child_len by_parent + 1 - node.path.data.length) ≤ f1 →
      max 1 (max_child_len by_parent + 1 - node.path.data.length) ≤ f2 →
      attach_children all_nodes by_parent f1 node =
        attach_children all_nodes by_parent f2 node := by
  intro f1
  induction f1 with
  | zero => intro node f2 h1 _; omega
  | succ f1 ih =>
    intro node f2 h1 h2
    cases f2 with
    | zero => omega
    | succ g2 =>
      rw [attach_children_succ, attach_children_succ]
      cases hbp : by_parent.lookup node.path with
      | none => rfl
      | some cps =>
        simp only []
        have hstep : attach_step all_nodes by_parent f1 cps =
            attach_step all_nodes by_parent g2 cps := by
          rw [attach_step, attach_step]
          refine List.filterMap_congr ?_
          intro cp hcp
          cases hc : all_nodes.lookup cp with
          | none => rfl
          | some child =>
            have hc1 : child.path = cp := Hpath cp child hc
            have h3 := max_child_len_bound (lookup_mem hbp) hcp
            have h4 := Hlen _ _ hbp cp hcp
            simp only [Option.map_some']
            rw [ih child g2 (by rw [hc1]; omega) (by rw [hc1]; omega)]
        rw [hstep]

/-! ### Instantiating the masters at the tables `get_tree` builds -/

theorem mk_node_path (e : FsEntry) : (mk_node e).path = vpath e := rfl

theorem mk_node_is_dir (e : FsEntry) : (mk_node e).is_dir = e.isDir := rfl

theorem root_not_mem_keys (entries : List FsEntry) :
    "/works" ∉ (build_nodes entries).map Prod.fst := by
  intro hmem
  have h := (lookup_isSome_iff_mem_keys _ _).mpr hmem
  rw [build_nodes_lookup_root] at h
  cases h

theorem get_tree_eq (entries : List FsEntry) :
    get_tree entries = attach_children (build_nodes entries)
      (sort_groups (build_groups ((build_nodes entries).map Prod.fst)))
      (((build_nodes entries).map Prod.fst).length + 1) default_root := by
  unfold get_tree
  simp only []
  rw [build_nodes_lookup_root, erase_key_of_not_mem _ _ (root_not_mem_keys entries)]
  rfl

theorem build_nodes_init_shape (entries : List FsEntry) (k : String) (m : Node)
    (h : (build_nodes entries).lookup k = some m) : init_shape m := by
  rcases build_nodes_shape entries k m h with ⟨_, hc⟩ | ⟨_, hc⟩
  · exact Or.inr hc
  · exact Or.inl hc

theorem tree_bp_lookup (keys : List String) (p : String) :
    (sort_groups (build_groups keys)).lookup p =
      if group_of keys p = [] then none
      else some (List.insertionSort strLeRel (group_of keys p)) := by
  rw [sort_groups_lookup, build_groups_lookup]
  by_cases h : group_of keys p = [] <;> simp [h]

theorem tree_bp_some {keys : List String} {p : String} {cps : List String}
    (h : (sort_groups (build_groups keys)).lookup p = some cps) :
    cps = List.insertionSort strLeRel (group_of keys p) ∧ group_of keys p ≠ [] := by
  rw [tree_bp_lookup] at h
  by_cases hg : group_of keys p = []
  · rw [if_pos hg] at h
    cases h
  · rw [if_neg hg] at h
    cases h
    exact ⟨rfl, hg⟩

theorem tree_bp_mem {keys : List String} {p : String} {cps : List String}
    (h : (sort_groups (build_groups keys)).lookup p = some cps) :
    ∀ cp ∈ cps, parent_path cp = some p ∧ cp ∈ keys := by
  obtain ⟨rfl, _⟩ := tree_bp_some h
  intro cp hcp
  have h1 : cp ∈ group_of keys p := (List.perm_insertionSort strLeRel _).subset hcp
  rw [group_of] at h1
  obtain ⟨h2, h3⟩ := List.mem_filter.mp h1
  exact ⟨eq_of_beq h3, h2⟩

theorem tree_bp_nodup {keys : List String} (hk : keys.Nodup) {p : String} {cps : List String}
    (h : (sort_groups (build_groups keys)).lookup p = some cps) : cps.Nodup := by
  obtain ⟨rfl, _⟩ := tree_bp_some h
  exact ((List.perm_insertionSort strLeRel _).nodup_iff).mpr (hk.filter _)

theorem tree_bp_sorted {keys : List String} {p : String} {cps : List String}
    (h : (sort_groups (build_groups keys)).lookup p = some cps) :
    List.Pairwise strLeRel cps := by
  obtain ⟨rfl, _⟩ := tree_bp_some h
  exact List.sorted_insertionSort strLeRel (group_of keys p)

theorem tree_bp_ne_nil {keys : List String} {p : String} {cps : List String}
    (h : (sort_groups (build_groups keys)).lookup p = some cps) : cps ≠ [] := by
  obtain ⟨rfl, hg⟩ := tree_bp_some h
  intro hc
  exact hg (List.eq_nil_of_length_eq_zero
    (by rw [← (List.perm_insertionSort strLeRel _).length_eq, hc, List.length_nil]))

theorem tree_bp_found (entries : List FsEntry) {p : String} {cps : List String}
    (h : (sort_groups (build_groups ((build_nodes entries).map Prod.fst))).lookup p =
      some cps) :
    ∀ cp ∈ cps, ((build_nodes entries).lookup cp).isSome = true := by
  intro cp hcp
  exact (lookup_isSome_iff_mem_keys _ _).mpr (tree_bp_mem h cp hcp).2

theorem keys_are_vpaths (entries : List FsEntry) (q : String)
    (h : q ∈ (build_nodes entries).map Prod.fst) :
    ∃ e ∈ entries, e.segs ≠ [] ∧ vpath e = q := by
  have h1 := (lookup_isSome_iff_mem_keys _ _).mpr h
  obtain ⟨m, hm⟩ := Option.isSome_iff_exists.mp h1
  obtain ⟨e, he, hs, hkv⟩ := build_nodes_mem entries _ (lookup_mem hm)
  exact ⟨e, he, hs, (congrArg Prod.fst hkv).symm⟩

theorem tree_bp_file (entries : List FsEntry) (hnfp : no_file_parents entries)
    (k : String) (m : Node) (h : (build_nodes entries).lookup k = some m)
    (hf : m.is_dir = false) :
    (sort_groups (build_groups ((build_nodes entries).map Prod.fst))).lookup k = none := by
  obtain ⟨e1, he1, hs1, hkv⟩ := build_nodes_mem entries _ (lookup_mem h)
  have hk : k = vpath e1 := congrArg Prod.fst hkv
  have hm : m = mk_node e1 := congrArg Prod.snd hkv
  have hd1 : e1.isDir = false := by
    rw [← mk_node_is_dir, ← hm]
    exact hf
  rw [tree_bp_lookup, if_pos ?_]
  rw [group_of, List.filter_eq_nil_iff]
  intro q hq
  obtain ⟨e2, he2, hs2, hv2⟩ := keys_are_vpaths entries q hq
  intro hbeq
  have : parent_path q = some k := eq_of_beq hbeq
  rw [← hv2, hk] at this
  exact hnfp e1 he1 e2 he2 hs1 hs2 hd1 this

theorem build_nodes_node_ok (entries : List FsEntry) (hnfp : no_file_parents entries)
    (k : String) (m : Node) (h : (build_nodes entries).lookup k = some m) :
    node_ok (sort_groups (build_groups ((build_nodes entries).map Prod.fst))) m := by
  rcases build_nodes_shape entries k m h with ⟨hd, hc⟩ | ⟨hd, hc⟩
  · exact Or.inl ⟨hd, hc⟩
  · refine Or.inr ⟨hd, hc, ?_⟩
    rw [build_nodes_path entries k m h]
    exact tree_bp_file entries hnfp k m h hd

/-! ### Claim C2: unique occurrence, parent by path stripping, root never a child -/

/-- Claim C2: in the assembled tree every node's path occurs exactly once
(the path list over the whole tree has no duplicates), every child's parent
link is obtained by stripping the last `/`-delimited segment — the node it
hangs under has exactly that derived path — and the root path `/works` never
occurs as any node's child. -/
theorem C2_tree_parent_unique (entries : List FsEntry) :
    ((tree_nodes (get_tree entries)).map Node.path).Nodup ∧
    (∀ n ∈ tree_nodes (get_tree entries), ∀ cs, n.children = some cs →
      ∀ c ∈ cs, parent_path c.path = some n.path ∧ c.path ≠ "/works") := by
  rw [get_tree_eq]
  have hkeys : (((build_nodes entries).map Prod.fst) : List String).Nodup :=
    build_nodes_keys_nodup entries
  constructor
  · exact (attach_nodup (build_nodes entries) _
      (build_nodes_path entries) (build_nodes_init_shape entries)
      (fun p cps h cp hcp => (tree_bp_mem h cp hcp).1)
      (fun p cps h => tree_bp_nodup hkeys h)
      _ default_root (Or.inr rfl)).1
  · intro n hn cs hcs c hc
    have h1 := attach_parent_link (build_nodes entries) _
      (build_nodes_path entries) (build_nodes_init_shape entries)
      (fun p cps h cp hcp => (tree_bp_mem h cp hcp).1)
      _ default_root (Or.inr rfl) n hn cs hcs c hc
    refine ⟨h1, ?_⟩
    intro hroot
    rw [hroot, show parent_path "/works" = (none : Option String) from by decide] at h1
    cases h1

/-- Witness for C2 on a one-file walk: no duplicate paths, and the single
child hangs under the root with the stripped path. -/
theorem C2_witness :
    ((tree_nodes (get_tree [FsEntry.mk ["a.md"] false none])).map Node.path).Nodup ∧
    parent_path (Node.mk "a.md" "/works/a.md" false none none).path =
      some (get_tree [FsEntry.mk ["a.md"] false none]).path ∧
    (Node.mk "a.md" "/works/a.md" false none none).path ≠ "/works" := by
  have h := C2_tree_parent_unique [FsEntry.mk ["a.md"] false none]
  have h2 := h.2 (get_tree [FsEntry.mk ["a.md"] false none])
    (self_mem_tree_nodes _) [Node.mk "a.md" "/works/a.md" false none none] rfl
    (Node.mk "a.md" "/works/a.md" false none none) (List.mem_cons_self _ _)
  exact ⟨h.1, h2.1, h2.2⟩

/-! ### Claim C3: children lists are sorted by virtual path -/

/-- Claim C3: every `children` list present anywhere in the assembled tree is
sorted in ascending lexicographic order of the children's virtual paths. -/
theorem C3_children_sorted (entries : List FsEntry) :
    ∀ n ∈ tree_nodes (get_tree entries), ∀ cs, n.children = some cs →
      List.Pairwise strLeRel (cs.map Node.path) := by
  rw [get_tree_eq]
  exact attach_sorted (build_nodes entries) _
    (build_nodes_path entries) (build_nodes_init_shape entries)
    (fun p cps h => tree_bp_sorted h)
    _ default_root (Or.inr rfl)

/-- Witness for C3: a two-file walk produces a root children list sorted by
path. -/
theorem C3_witness :
    List.Pairwise strLeRel
      ([Node.mk "a.md" "/works/a.md" false none none,
        Node.mk "b.md" "/works/b.md" false none none].map Node.path) :=
  C3_children_sorted [FsEntry.mk ["b.md"] false none, FsEntry.mk ["a.md"] false none]
    (get_tree [FsEntry.mk ["b.md"] false none, FsEntry.mk ["a.md"] false none])
    (self_mem_tree_nodes _) _ rfl

/-! ### Claim C1: the serialized `children` field -/

theorem serialize_children_field (m : Node) :
    json_field (serialize_node m) "children" =
      some (match m.children with
        | none => Json.null
        | some cs => Json.arr (serialize_node_list cs)) := by
  cases m with
  | mk n p d c t => cases t <;> cases c <;> rfl

/-- Counterexample for claim C1 as stated: on the `c1_entries` walk the
assembled tree serializes the file node with an explicit `"children": null`
field (not an absent field), and serializes the childless directory with an
explicit `"children": []` (not an omitted field). -/
theorem C1_counterexample :
    tree_nodes (get_tree c1_entries) =
      [Node.mk "works" "/works" true
        (some [Node.mk "d" "/works/d" true (some []) none,
               Node.mk "f.md" "/works/f.md" false none none]) none,
       Node.mk "d" "/works/d" true (some []) none,
       Node.mk "f.md" "/works/f.md" false none none] ∧
    (Node.mk "f.md" "/works/f.md" false none none).is_dir = false ∧
    json_field (serialize_node (Node.mk "f.md" "/works/f.md" false none none))
      "children" = some Json.null ∧
    (Node.mk "d" "/works/d" true (some []) none).is_dir = true ∧
    json_field (serialize_node (Node.mk "d" "/works/d" true (some []) none))
      "children" = some (Json.arr []) :=
  ⟨rfl, rfl, rfl, rfl, rfl⟩

/-- Claim C1 (amended): in the serialized tree the `children` key is always
present; it is `null` exactly on file nodes, and a JSON array (possibly
empty, for a directory with no entries) on directory nodes. -/
theorem C1_amended_children_serialization (entries : List FsEntry)
    (hnfp : no_file_parents entries) :
    ∀ m ∈ tree_nodes (get_tree entries),
      (m.is_dir = false → json_field (serialize_node m) "children" = some Json.null) ∧
      (m.is_dir = true →
        ∃ js, json_field (serialize_node m) "children" = some (Json.arr js)) := by
  rw [get_tree_eq]
  have hkeys : (((build_nodes entries).map Prod.fst) : List String).Nodup :=
    build_nodes_keys_nodup entries
  intro m hm
  have hshape := attach_shape (build_nodes entries) _
    (build_nodes_node_ok entries hnfp)
    (fun p cps h => tree_bp_found entries h)
    (fun p cps h => tree_bp_ne_nil h)
    _ default_root (Or.inl ⟨rfl, rfl⟩) m hm
  constructor
  · intro hf
    rw [serialize_children_field, hshape.1 hf]
  · intro hd
    obtain ⟨cs, hcs⟩ := hshape.2 hd
    exact ⟨serialize_node_list cs, by rw [serialize_children_field, hcs]⟩

/-- Witness for the amended C1 on the `c1_entries` walk: the file node
serializes `children` as `null`, the directory nodes as arrays. -/
theorem C1_amended_witness :
    json_field (serialize_node (Node.mk "f.md" "/works/f.md" false none none))
      "children" = some Json.null ∧
    ∃ js, json_field (serialize_node (Node.mk "d" "/works/d" true (some []) none))
      "children" = some (Json.arr js) := by
  have hnfp : no_file_parents c1_entries := by
    intro e1 he1 e2 he2 h1 h2 hd
    fin_cases he1 <;> fin_cases he2 <;>
      first
        | exact absurd hd (by decide)
        | decide
  have h := C1_amended_children_serialization c1_entries hnfp
  have htn : tree_nodes (get_tree c1_entries) =
      [Node.mk "works" "/works" true
        (some [Node.mk "d" "/works/d" true (some []) none,
               Node.mk "f.md" "/works/f.md" false none none]) none,
       Node.mk "d" "/works/d" true (some []) none,
       Node.mk "f.md" "/works/f.md" false none none] := rfl
  have hmemf : Node.mk "f.md" "/works/f.md" false none none ∈
      tree_nodes (get_tree c1_entries) := by
    rw [htn]
    exact List.mem_cons_of_mem _ (List.mem_cons_of_mem _ (List.mem_cons_self _ _))
  have hmemd : Node.mk "d" "/works/d" true (some []) none ∈
      tree_nodes (get_tree c1_entries) := by
    rw [htn]
    exact List.mem_cons_of_mem _ (List.mem_cons_self _ _)
  exact ⟨(h _ hmemf).1 rfl, (h _ hmemd).2 rfl⟩

/-! ### Claim C9: the child-attachment recursion terminates -/

/-- Claim C9: over any flat node table and parent-to-children index in which
every child path listed under a parent key is strictly longer than that key
(which holds for the assembler's index, since parents arise by stripping a
path's last segment), the recursive attachment stabilizes: every fuel bound
beyond the longest recorded child path yields the same result, i.e. the
recursion terminates. -/
theorem C9_attach_terminates (all_nodes : List (String × Node))
    (by_parent : List (String × List String))
    (Hpath : ∀ k m, all_nodes.lookup k = some m → m.path = k)
    (Hlen : ∀ k cs, by_parent.lookup k = some cs →
      ∀ c ∈ cs, k.data.length < c.data.length) :
    ∀ (node : Node) (f1 f2 : Nat),
      max_child_len by_parent + 1 ≤ f1 → max_child_len by_parent + 1 ≤ f2 →
      attach_children all_nodes by_parent f1 node =
        attach_children all_nodes by_parent f2 node := by
  intro node f1 f2 h1 h2
  exact attach_children_stable all_nodes by_parent Hpath Hlen f1 node f2
    (by omega) (by omega)

/-- Witness for C9: a one-child table is attached identically with fuel 9 and
fuel 20. -/
theorem C9_witness :
    attach_children [("/works/a", Node.mk "a" "/works/a" false none none)]
      [("/works", ["/works/a"])] 9 default_root =
    attach_children [("/works/a", Node.mk "a" "/works/a" false none none)]
      [("/works", ["/works/a"])] 20 default_root := by
  refine C9_attach_terminates _ _ ?_ ?_ default_root 9 20 (by decide) (by decide)
  · intro k m h
    have hm := lookup_mem h
    simp only [List.mem_singleton, Prod.mk.injEq] at hm
    obtain ⟨h1, h2⟩ := hm
    rw [h2, ← h1]
    rfl
  · intro k cs h cp hcp
    have hm := lookup_mem h
    simp only [List.mem_singleton, Prod.mk.injEq] at hm
    obtain ⟨h1, h2⟩ := hm
    subst h1
    subst h2
    simp only [List.mem_singleton] at hcp
    subst hcp
    decide

/-! ### Claim C8: the tree is a deterministic function of the walked entries -/

theorem build_nodes_append (es : List FsEntry) (e : FsEntry) :
    build_nodes (es ++ [e]) =
      if e.segs = [] then build_nodes es
      else insert_node (build_nodes es) (vpath e) (mk_node e) := by
  unfold build_nodes
  rw [List.foldl_append]
  rfl

theorem build_nodes_lookup_iff (entries : List FsEntry)
    (hnd : (entries.map vpath).Nodup) (k : String) (v : Node) :
    (build_nodes entries).lookup k = some v ↔
      ∃ e ∈ entries, e.segs ≠ [] ∧ vpath e = k ∧ mk_node e = v := by
  induction entries using List.reverseRecOn with
  | nil => simp [build_nodes, List.lookup]
  | append_singleton es e ih =>
    rw [build_nodes_append]
    rw [List.map_append, List.nodup_append] at hnd
    have hnd2 : (es.map vpath).Nodup := hnd.1
    have hfresh : vpath e ∉ es.map vpath := by
      intro hc
      exact hnd.2.2 hc (List.mem_singleton_self _)
    by_cases hs : e.segs = []
    · rw [if_pos hs, ih hnd2]
      constructor
      · rintro ⟨e', he', hs', rest⟩
        exact ⟨e', List.mem_append_left _ he', hs', rest⟩
      · rintro ⟨e', he', hs', rest⟩
        rcases List.mem_append.mp he' with h | h
        · exact ⟨e', h, hs', rest⟩
        · simp only [List.mem_singleton] at h
          subst h
          exact absurd hs hs'
    · rw [if_neg hs, insert_node_lookup]
      by_cases hk : k = vpath e
      · rw [if_pos hk]
        subst hk
        constructor
        · intro hv
          cases hv
          exact ⟨e, List.mem_append_right _ (List.mem_singleton_self _), hs, rfl, rfl⟩
        · rintro ⟨e', he', hs', hvp, hmk⟩
          rcases List.mem_append.mp he' with h | h
          · exfalso
            apply hfresh
            rw [← hvp]
            exact List.mem_map_of_mem vpath h
          · simp only [List.mem_singleton] at h
            subst h
            rw [← hmk]
      · rw [if_neg hk, ih hnd2]
        constructor
        · rintro ⟨e', he', hs', hvp, hmk⟩
          exact ⟨e', List.mem_append_left _ he', hs', hvp, hmk⟩
        · rintro ⟨e', he', hs', hvp, hmk⟩
          rcases List.mem_append.mp he' with h | h
          · exact ⟨e', h, hs', hvp, hmk⟩
          · simp only [List.mem_singleton] at h
            subst h
            exact absurd hvp.symm hk

theorem build_nodes_lookup_perm (e1 e2 : List FsEntry) (hperm : e1.Perm e2)
    (hnd : (e1.map vpath).Nodup) (k : String) :
    (build_nodes e1).lookup k = (build_nodes e2).lookup k := by
  have hnd2 : (e2.map vpath).Nodup := ((hperm.map vpath).nodup_iff).mp hnd
  cases h1 : (build_nodes e1).lookup k with
  | some v =>
    obtain ⟨e, he, hs, hv, hm⟩ := (build_nodes_lookup_iff e1 hnd k v).mp h1
    exact ((build_nodes_lookup_iff e2 hnd2 k v).mpr ⟨e, hperm.subset he, hs, hv, hm⟩).symm
  | none =>
    cases h2 : (build_nodes e2).lookup k with
    | none => rfl
    | some v =>
      obtain ⟨e, he, hs, hv, hm⟩ := (build_nodes_lookup_iff e2 hnd2 k v).mp h2
      rw [(build_nodes_lookup_iff e1 hnd k v).mpr
        ⟨e, hperm.symm.subset he, hs, hv, hm⟩] at h1
      cases h1

theorem build_nodes_keys_perm (e1 e2 : List FsEntry) (hperm : e1.Perm e2)
    (hnd : (e1.map vpath).Nodup) :
    ((build_nodes e1).map Prod.fst).Perm ((build_nodes e2).map Prod.fst) := by
  rw [List.perm_ext_iff_of_nodup (build_nodes_keys_nodup e1) (build_nodes_keys_nodup e2)]
  intro k
  rw [← lookup_isSome_iff_mem_keys, ← lookup_isSome_iff_mem_keys,
    build_nodes_lookup_perm e1 e2 hperm hnd k]

theorem tree_bp_perm (k1 k2 : List String) (hperm : k1.Perm k2) (p : String) :
    (sort_groups (build_groups k1)).lookup p = (sort_groups (build_groups k2)).lookup p := by
  rw [tree_bp_lookup, tree_bp_lookup]
  have hgp : (group_of k1 p).Perm (group_of k2 p) := hperm.filter _
  have heq : List.insertionSort strLeRel (group_of k1 p) =
      List.insertionSort strLeRel (group_of k2 p) := by
    refine List.eq_of_perm_of_sorted ?_ (List.sorted_insertionSort ..)
      (List.sorted_insertionSort ..)
    exact (List.perm_insertionSort strLeRel _).trans
      (hgp.trans (List.perm_insertionSort strLeRel _).symm)
  by_cases h1 : group_of k1 p = []
  · have h2 : group_of k2 p = [] := by
      rw [h1] at hgp
      exact hgp.symm.eq_nil
    rw [if_pos h1, if_pos h2]
  · have h2 : group_of k2 p ≠ [] := by
      intro hc
      rw [hc] at hgp
      exact h1 hgp.eq_nil
    rw [if_neg h1, if_neg h2, heq]

/-- Claim C8: for a fixed set of walked entries the assembled tree is a
deterministic function of the content root: any two enumeration orders of
the same entries (the walk and hash-map iteration orders are modelled by the
list order) produce structurally identical trees. -/
theorem C8_tree_deterministic (e1 e2 : List FsEntry)
    (hperm : e1.Perm e2) (hnd : (e1.map vpath).Nodup) :
    get_tree e1 = get_tree e2 := by
  rw [get_tree_eq, get_tree_eq]
  have hkperm := build_nodes_keys_perm e1 e2 hperm hnd
  have hklen := hkperm.length_eq
  rw [← hklen]
  exact attach_children_congr _ _ _ _
    (build_nodes_lookup_perm e1 e2 hperm hnd)
    (tree_bp_perm _ _ hkperm)
    _ default_root

/-- Witness for C8: the same two files walked in either order produce the
same tree. -/
theorem C8_witness :
    get_tree [FsEntry.mk ["b.md"] false none, FsEntry.mk ["a.md"] false none] =
    get_tree [FsEntry.mk ["a.md"] false none, FsEntry.mk ["b.md"] false none] :=
  C8_tree_deterministic _ _ (List.Perm.swap _ _ _) (by decide)
